import Mathlib

/-!
Shallow embedding of the piece-table text buffer of the repository
(package buf: the piece table, the bidirectional reader, line queries,
position conversion and markers), together with the fragment of the Go
standard library package unicode/utf8 that the reader depends on.

Modelling conventions: bytes are natural numbers, byte strings are
lists, the circular piece list is represented by the list of its
non-sentinel nodes in document order (the sentinel is the index
`pieces.length`), Go panics become `none` / dedicated error results,
and Go `int` values that the code may drive below zero (edit offsets,
marker offsets) are `Int`.  Loops that Go writes with `goto` or `for`
are modelled with an explicit fuel argument; every call site passes a
fuel that dominates the number of iterations the Go loop can make from
that state, so the fuel-exhaustion branch is unreachable.
-/

namespace BufModel

/-- Unicode replacement character U+FFFD, `utf8.RuneError` in Go. -/
def runeError : Nat := 0xFFFD

/-- Classification of a leading UTF-8 byte, modelling the `first` table
of package unicode/utf8: an ASCII byte, an invalid leading byte, or the
start of a `size`-byte sequence whose second byte must lie in the
accept range `[lo, hi]`. -/
inductive FirstClass where
  | ascii
  | invalid
  | multi (size lo hi : Nat)
deriving DecidableEq, Repr

/-- The `first` table plus `acceptRanges` of unicode/utf8, folded into
one classification function on the leading byte. -/
def utf8First (b : Nat) : FirstClass :=
  if b < 0x80 then .ascii
  else if b < 0xC2 then .invalid
  else if b < 0xE0 then .multi 2 0x80 0xBF
  else if b = 0xE0 then .multi 3 0xA0 0xBF
  else if b < 0xED then .multi 3 0x80 0xBF
  else if b = 0xED then .multi 3 0x80 0x9F
  else if b < 0xF0 then .multi 3 0x80 0xBF
  else if b = 0xF0 then .multi 4 0x90 0xBF
  else if b < 0xF4 then .multi 4 0x80 0xBF
  else if b = 0xF4 then .multi 4 0x80 0x8F
  else .invalid

/-- `utf8.FullRune`: whether `p` begins with a full UTF-8 encoding of a
rune.  An invalid encoding counts as full because it decodes as a
width-1 error rune; the result is `false` exactly when `p` is a proper
prefix of a valid encoding. -/
def utf8FullRune (p : List Nat) : Bool :=
  match p with
  | [] => false
  | b0 :: rest =>
    match utf8First b0 with
    | .ascii => true
    | .invalid => true
    | .multi size lo hi =>
      if size ≤ p.length then true
      else
        match rest with
        | [] => false
        | b1 :: rest2 =>
          if b1 < lo ∨ hi < b1 then true
          else
            match rest2 with
            | [] => false
            | b2 :: _ => if b2 < 0x80 ∨ 0xBF < b2 then true else false

/-- `utf8.DecodeRune`: decode the first rune of `p`, returning the rune
and its size in bytes.  Empty input gives `(RuneError, 0)`; an invalid
or incomplete encoding gives `(RuneError, 1)`.  Masking with `&` in the
Go source is expressed with `%` (the leading byte already matched its
range, so the two agree). -/
def utf8DecodeRune (p : List Nat) : Nat × Nat :=
  match p with
  | [] => (runeError, 0)
  | b0 :: rest =>
    match utf8First b0 with
    | .ascii => (b0, 1)
    | .invalid => (runeError, 1)
    | .multi size lo hi =>
      if p.length < size then (runeError, 1)
      else
        match rest with
        | [] => (runeError, 1)
        | b1 :: rest2 =>
          if b1 < lo ∨ hi < b1 then (runeError, 1)
          else if size = 2 then ((b0 % 0x20) * 0x40 + b1 % 0x40, 2)
          else
            match rest2 with
            | [] => (runeError, 1)
            | b2 :: rest3 =>
              if b2 < 0x80 ∨ 0xBF < b2 then (runeError, 1)
              else if size = 3 then
                ((b0 % 0x10) * 0x1000 + (b1 % 0x40) * 0x40 + b2 % 0x40, 3)
              else
                match rest3 with
                | [] => (runeError, 1)
                | b3 :: _ =>
                  if b3 < 0x80 ∨ 0xBF < b3 then (runeError, 1)
                  else ((b0 % 0x8) * 0x40000 + (b1 % 0x40) * 0x1000 +
                        (b2 % 0x40) * 0x40 + b3 % 0x40, 4)

/-- A piece: a half-open range `[off1, off2)` into the byte store.  The
`prev` and `next` links of the Go struct are represented by the order
of the list `Buf.pieces`. -/
structure Piece where
  off1 : Nat
  off2 : Nat
deriving DecidableEq, Repr

/-- Length of a piece (`piece.len` in the source). -/
def Piece.len (p : Piece) : Nat := p.off2 - p.off1

/-- The buffer.  `bytes` is the append-only byte store, `pieces` the
non-sentinel nodes of the circular piece list in document order,
`markers` the observer registry (the only observers in the repository
are markers, an id paired with the marker offset), `lineCacheLine` /
`lineCacheOff` the one-entry line cache (line 0 = invalid), `lines` the
cached line count (0 = unknown). -/
structure Buf where
  bytes : List Nat
  pieces : List Piece
  len : Nat
  nextFreeObserverId : Nat
  markers : List (Nat × Int)
  lineCacheLine : Nat
  lineCacheOff : Nat
  lines : Nat
deriving DecidableEq, Repr

/-- `Buf.Init`: the empty buffer. -/
def Buf.init : Buf :=
  { bytes := [], pieces := [], len := 0, nextFreeObserverId := 0,
    markers := [], lineCacheLine := 0, lineCacheOff := 0, lines := 0 }

/-- `marker.OnBufInsert`: a marker at `m` reacts to an insertion of `n`
bytes at `off`. -/
def markerOnBufInsert (off : Int) (n : Nat) (m : Int) : Int :=
  if off ≤ m then m + n else m

/-- `marker.OnBufDelete`: a marker at `m` reacts to a deletion of
`[off1, off2)`. -/
def markerOnBufDelete (off1 off2 m : Int) : Int :=
  if off2 ≤ m then m - (off2 - off1) else m

/-- `Buf.findPiece` scan: first piece (from `start`, index `idx`) whose
range contains `off`; falling off the end returns the sentinel index
with the accumulated start offset. -/
def findPieceAux (off : Nat) : List Piece → Nat → Nat → Nat × Nat
  | [], start, idx => (start, idx)
  | p :: rest, start, idx =>
    if start ≤ off ∧ off < start + p.len then (start, idx)
    else findPieceAux off rest (start + p.len) (idx + 1)

/-- `Buf.findPiece`: returns `(pieceStart, index)`; index
`b.pieces.length` is the sentinel. -/
def Buf.findPiece (b : Buf) (off : Nat) : Nat × Nat :=
  findPieceAux off b.pieces 0 0

/-- `Buf.Insert`.  `none` models the panic on an invalid offset.  The
splice `left / new / right` of the linked list is the corresponding
list surgery on `pieces`. -/
def Buf.insert (b : Buf) (off : Int) (s : List Nat) : Option Buf :=
  if off < 0 ∨ (b.len : Int) < off then none
  else if s = [] then some b
  else
    let b1 : Buf :=
      { b with
        lineCacheLine := 0
        lines := 0
        markers := b.markers.map fun q => (q.1, markerOnBufInsert off s.length q.2) }
    let storeOff := b1.bytes.length
    let np : Piece := ⟨storeOff, storeOff + s.length⟩
    let offN := off.toNat
    let fp := b1.findPiece offN
    if offN = fp.1 then
      some { b1 with
             bytes := b1.bytes ++ s
             pieces := b1.pieces.take fp.2 ++ [np] ++ b1.pieces.drop fp.2
             len := b1.len + s.length }
    else
      let p := b1.pieces.getD fp.2 ⟨0, 0⟩
      let len1 := offN - fp.1
      some { b1 with
             bytes := b1.bytes ++ s
             pieces := b1.pieces.take fp.2 ++
               [⟨p.off1, p.off1 + len1⟩, np, ⟨p.off1 + len1, p.off2⟩] ++
               b1.pieces.drop (fp.2 + 1)
             len := b1.len + s.length }

/-- `Buf.Delete`.  `none` models the panic on invalid offsets.  The
left endpoint keeps everything before `off1` (splitting if `off1` is
inside a piece), the right endpoint keeps everything from `off2` on,
and linking them drops the pieces in between. -/
def Buf.delete (b : Buf) (off1 off2 : Int) : Option Buf :=
  if off2 < off1 ∨ off1 < 0 ∨ (b.len : Int) < off2 then none
  else if off1 = off2 then some b
  else
    let b1 : Buf :=
      { b with
        lineCacheLine := 0
        lines := 0
        markers := b.markers.map fun q => (q.1, markerOnBufDelete off1 off2 q.2) }
    let o1n := off1.toNat
    let o2n := off2.toNat
    let f1 := b1.findPiece o1n
    let f2 := b1.findPiece o2n
    let leftPieces :=
      if o1n = f1.1 then b1.pieces.take f1.2
      else
        let p1 := b1.pieces.getD f1.2 ⟨0, 0⟩
        b1.pieces.take f1.2 ++ [⟨p1.off1, p1.off1 + (o1n - f1.1)⟩]
    let rightPieces :=
      if o2n = f2.1 then b1.pieces.drop f2.2
      else
        let p2 := b1.pieces.getD f2.2 ⟨0, 0⟩
        ⟨p2.off1 + (o2n - f2.1), p2.off2⟩ :: b1.pieces.drop (f2.2 + 1)
    some { b1 with
           pieces := leftPieces ++ rightPieces
           len := b1.len - (o2n - o1n) }

/-- `Buf.sliceOfPiece`: the bytes `store[off1:off2]` of a piece. -/
def Buf.sliceOfPiece (b : Buf) (p : Piece) : List Nat :=
  (b.bytes.drop p.off1).take (p.off2 - p.off1)

/-- `Buf.String`: materialize the document by concatenating the piece
slices in list order.  (The Go code seeds the join with eight empty
strings, which contribute nothing.) -/
def Buf.string (b : Buf) : List Nat :=
  (b.pieces.map fun p => b.sliceOfPiece p).flatten

/-- `Buf.NewMarker` / `Buf.AddObserver`: register a marker at `off`
under the next free observer id; returns the new buffer and the id. -/
def Buf.newMarker (b : Buf) (off : Int) : Buf × Nat :=
  ({ b with
     markers := b.markers ++ [(b.nextFreeObserverId, off)]
     nextFreeObserverId := b.nextFreeObserverId + 1 }, b.nextFreeObserverId)

/-- The reader: current piece (index into `pieces`, where
`pieces.length` denotes the sentinel), offset inside that piece,
absolute offset, direction flag, and the size of the last rune read
(-1 when the last operation was not a rune read). -/
structure Reader where
  pieceIdx : Nat
  offInPiece : Int
  off : Nat
  rev : Bool
  lastRuneSize : Int
deriving DecidableEq, Repr

/-- `Buf.NewReader`: a forward reader positioned at `off`. -/
def Buf.newReader (b : Buf) (off : Nat) : Reader :=
  let fp := b.findPiece off
  { pieceIdx := fp.2, offInPiece := (off : Int) - fp.1, off := off,
    rev := false, lastRuneSize := -1 }

/-- `Reader.Reverse`: toggle the read direction. -/
def Reader.reverseDir (rd : Reader) : Reader :=
  { rd with rev := !rd.rev }

/-- The piece the reader currently points at; the sentinel (index
`pieces.length` and beyond) is the zero piece, whose slice is empty,
exactly as in the Go code where the sentinel node has `off1 = off2 = 0`. -/
def Buf.pieceAt (b : Buf) (idx : Nat) : Piece :=
  b.pieces.getD idx ⟨0, 0⟩

/-- `prev` link of the circular piece list in index form: the node
before index 0 is the sentinel (`pieces.length`), and the node before
the sentinel is the last piece. -/
def Buf.prevIdx (b : Buf) (idx : Nat) : Nat :=
  if idx = 0 then b.pieces.length else idx - 1

/-- The `process_piece` goto loop inside `Reader.Read`: copy bytes from
the current piece into the destination (of size `dstLen`; `acc` is
what has been copied so far), stepping to the next piece while there is
room.  Returns the copied bytes, the reader after the copy, and whether
the loop ended at the sentinel (in Go: returned `io.EOF`).  The fuel is
an upper bound on the number of pieces left to visit; every caller
passes `b.pieces.length`, which suffices because each iteration either
returns or advances `pieceIdx`, and the sentinel test precedes the fuel
test. -/
def bufReadLoop (b : Buf) (dstLen : Nat) : Nat → Reader → List Nat → List Nat × Reader × Bool
  | fuel, r, acc =>
    if b.pieces.length ≤ r.pieceIdx then (acc, r, true)
    else
      match fuel with
      | 0 => (acc, r, true)
      | fuel + 1 =>
        let bytes := b.sliceOfPiece (b.pieceAt r.pieceIdx)
        let avail := bytes.drop r.offInPiece.toNat
        let n := min (dstLen - acc.length) avail.length
        let acc2 := acc ++ avail.take n
        if acc2.length = dstLen then
          (acc2, { r with
                   off := r.off + n
                   offInPiece := r.offInPiece + n
                   lastRuneSize := -1 }, false)
        else
          bufReadLoop b dstLen fuel
            { r with off := r.off + n, pieceIdx := r.pieceIdx + 1, offInPiece := 0 } acc2

/-- `Reader.Read` with a destination buffer of size `dstLen`: returns
the bytes read, the updated reader and the EOF flag, or an error for
the panic on a reverse-directed reader. -/
def Buf.read (b : Buf) (rd : Reader) (dstLen : Nat) :
    Except String (List Nat × Reader × Bool) :=
  if rd.rev then .error "Reader.Read in reverse direction not implemented"
  else .ok (bufReadLoop b dstLen b.pieces.length rd [])

/-- Result of a rune read: a rune with its reported size and the
updated reader, end of file (with the reader as the Go code leaves it),
or a panic. -/
inductive ReadRuneResult where
  | val (rn : Nat) (size : Nat) (rd : Reader)
  | eofRes (rd : Reader)
  | panicRes (msg : String)
deriving DecidableEq, Repr

/-- `Reader.readRuneForward`: ASCII fast path, complete rune inside the
current piece, or the fall-back staging read of up to 4 bytes via
`Read` (which advances the reader by however many bytes it copied). -/
def readRuneForward (b : Buf) (rd : Reader) : ReadRuneResult :=
  let bytes := (b.sliceOfPiece (b.pieceAt rd.pieceIdx)).drop rd.offInPiece.toNat
  if 0 < bytes.length ∧ bytes.getD 0 0 < 0x80 then
    .val (bytes.getD 0 0) 1 { rd with off := rd.off + 1, offInPiece := rd.offInPiece + 1 }
  else if utf8FullRune bytes then
    let dec := utf8DecodeRune bytes
    .val dec.1 dec.2 { rd with off := rd.off + dec.2, offInPiece := rd.offInPiece + dec.2 }
  else
    match b.read rd 4 with
    | .error msg => .panicRes msg
    | .ok (data, rd2, _) =>
      if data.length = 0 then .eofRes rd2
      else
        let dec := utf8DecodeRune data
        .val dec.1 dec.2 rd2

/-- Go slice indexing: `none` models the index-out-of-range panic. -/
def sliceIndex (l : List Nat) (i : Int) : Option Nat :=
  if i < 0 then none else l.get? i.toNat

/-- The `read_next_byte` goto loop of `Reader.readRuneBackward`: read
one byte at a time from the end of the current piece backwards into
`acc` (so `acc` holds the bytes in reverse document order), stepping
`piece = piece.prev` whenever `offInPiece` reaches zero — note that the
source then sets `offInPiece` to the `off2` field of the new piece, not
to its length — and decode as soon as `utf8.FullRune` accepts `acc`.
At the start of the document: EOF if nothing was read, otherwise the
(unimplemented) partial-rune panic.  Fuel: each iteration decrements
`rd.off` by exactly one and the `off = 0` test precedes the fuel test,
so the fuel `rd.off` passed by the caller is never exhausted. -/
def readRuneBackwardLoop (b : Buf) : Nat → Reader → List Nat → ReadRuneResult
  | fuel, rd, acc =>
    if rd.off = 0 then
      if acc.length = 0 then .eofRes rd
      else .panicRes "partial utf8 at end of buffer not yet implemented"
    else
      match fuel with
      | 0 => .panicRes "fuel exhausted (unreachable: fuel = rd.off)"
      | fuel + 1 =>
        let rd1 :=
          if rd.offInPiece ≤ 0 then
            let idx := b.prevIdx rd.pieceIdx
            { rd with pieceIdx := idx, offInPiece := ((b.pieceAt idx).off2 : Int) }
          else rd
        match sliceIndex (b.sliceOfPiece (b.pieceAt rd1.pieceIdx)) (rd1.offInPiece - 1) with
        | none => .panicRes "runtime error: index out of range"
        | some byte =>
          let acc2 := acc ++ [byte]
          let rd2 := { rd1 with offInPiece := rd1.offInPiece - 1, off := rd1.off - 1 }
          let rd3 :=
            if rd2.offInPiece ≤ 0 then
              let idx := b.prevIdx rd2.pieceIdx
              { rd2 with pieceIdx := idx, offInPiece := ((b.pieceAt idx).off2 : Int) }
            else rd2
          if utf8FullRune acc2 then
            let dec := utf8DecodeRune acc2
            .val dec.1 dec.2 rd3
          else readRuneBackwardLoop b fuel rd3 acc2

/-- `Reader.readRuneBackward`. -/
def readRuneBackward (b : Buf) (rd : Reader) : ReadRuneResult :=
  readRuneBackwardLoop b rd.off rd []

/-- `Reader.ReadRune`: direction dispatch; on success the last rune
size memo is updated. -/
def readRune (b : Buf) (rd : Reader) : ReadRuneResult :=
  match (if rd.rev then readRuneBackward b rd else readRuneForward b rd) with
  | .val rn size rd2 => .val rn size { rd2 with lastRuneSize := (size : Int) }
  | other => other

/-- The inner loop of `Buf.Line`: read runes until a newline (returning
the offset just after it together with the reader) or an error
(`none`, upon which `Line` returns the current start-of-line early).
Fuel: each successful rune read advances the reader by at least one
byte, so from any reader over a well-formed buffer at most `b.len`
reads succeed before EOF; callers pass `b.len + 1`. -/
def lineScanOne (b : Buf) : Nat → Reader → Option (Nat × Reader)
  | 0, _ => none
  | fuel + 1, rd =>
    match readRune b rd with
    | .val rn _ rd2 => if rn = 10 then some (rd2.off, rd2) else lineScanOne b fuel rd2
    | _ => none

/-- The outer loop of `Buf.Line`: skip `linesToSkip` newlines, tracking
`startOfLine`.  The boolean records whether the scan returned early
on an error (in Go: the `return startOfLine` inside the loop, which
skips the cache update). -/
def lineSkipLoop (b : Buf) : Nat → Reader → Nat → Nat × Bool
  | 0, _, startOfLine => (startOfLine, false)
  | k + 1, rd, startOfLine =>
    match lineScanOne b (b.len + 1) rd with
    | none => (startOfLine, true)
    | some (off2, rd2) => lineSkipLoop b k rd2 off2

/-- `Buf.Line`: offset of the first character of line `n` (1-indexed),
with the one-entry cache consulted and conditionally updated exactly as
in the source.  Returns the offset and the buffer (whose cache may have
changed). -/
def Buf.line (b : Buf) (n : Nat) : Nat × Buf :=
  if b.lineCacheLine ≠ 0 ∧ b.lineCacheLine < n then
    let rd := b.newReader b.lineCacheOff
    let res := lineSkipLoop b (n - b.lineCacheLine) rd b.lineCacheOff
    if res.2 then (res.1, b)
    else if b.lineCacheLine = 0 ∨ (n < b.lineCacheLine ∧ 5 < n) ∨ 5 < n - b.lineCacheLine then
      (res.1, { b with lineCacheLine := n, lineCacheOff := res.1 })
    else (res.1, b)
  else if b.lineCacheLine = n then (b.lineCacheOff, b)
  else
    let rd := b.newReader 0
    let res := lineSkipLoop b (n - 1) rd 0
    if res.2 then (res.1, b)
    else if b.lineCacheLine = 0 ∨ (n < b.lineCacheLine ∧ 5 < n) ∨ 5 < n - b.lineCacheLine then
      (res.1, { b with lineCacheLine := n, lineCacheOff := res.1 })
    else (res.1, b)

/-- The counting loop of `Buf.Lines`: read runes until EOF, counting
newlines.  Fuel as in `lineScanOne`. -/
def linesLoop (b : Buf) : Nat → Reader → Nat → Nat
  | 0, _, cnt => cnt
  | fuel + 1, rd, cnt =>
    match readRune b rd with
    | .val rn _ rd2 => linesLoop b fuel rd2 (if rn = 10 then cnt + 1 else cnt)
    | _ => cnt

/-- `Buf.Lines`: the cached or freshly counted number of lines; returns
the count and the buffer with the cache filled. -/
def Buf.linesFn (b : Buf) : Nat × Buf :=
  if b.lines ≠ 0 then (b.lines, b)
  else
    let n := linesLoop b (b.len + 1) (b.newReader 0) 1
    (n, { b with lines := n })

/-- The loop of `Buf.PositionFromOffset`: read runes from offset 0,
tracking line and column, until the reader offset equals the target;
`none` models the error return when a read fails first.  Fuel as in
`lineScanOne` (one extra step for the final offset test). -/
def posFromOffLoop (b : Buf) (target : Nat) : Nat → Reader → Nat → Nat → Option (Nat × Nat)
  | 0, _, _, _ => none
  | fuel + 1, rd, line, col =>
    if rd.off = target then some (line, col)
    else
      match readRune b rd with
      | .val rn _ rd2 =>
        if rn = 10 then posFromOffLoop b target fuel rd2 (line + 1) 1
        else posFromOffLoop b target fuel rd2 line (col + 1)
      | _ => none

/-- `Buf.PositionFromOffset`: translate an offset into a (line, column)
position, both 1-indexed; `none` models the error return. -/
def Buf.positionFromOffset (b : Buf) (off : Nat) : Option (Nat × Nat) :=
  posFromOffLoop b off (b.len + 1) (b.newReader 0) 1 1

/-- The loop of `Buf.PositionToOffset`: skip `runesToSkip` runes
without crossing a newline; `none` models both error returns. -/
def posToOffLoop (b : Buf) : Nat → Reader → Option Nat
  | 0, rd => some rd.off
  | k + 1, rd =>
    match readRune b rd with
    | .val rn _ rd2 => if rn = 10 then none else posToOffLoop b k rd2
    | _ => none

/-- `Buf.PositionToOffset`: resolve the line via `Line`, then advance
`column - 1` runes.  Returns the offset (or `none` on error) and the
buffer as left by `Line`. -/
def Buf.positionToOffset (b : Buf) (line col : Nat) : Option Nat × Buf :=
  let res := b.line line
  (posToOffLoop res.2 (col - 1) (res.2.newReader res.1), res.2)

/-- Sum of the piece lengths. -/
def pieceLenSum (l : List Piece) : Nat := (l.map Piece.len).sum

/-- Well-formedness of a buffer, the data-model invariants of the spec
that every buffer reachable through the public operations satisfies:
the cached length is the sum of the piece lengths, and every piece is a
nonempty range inside the byte store. -/
def Buf.Wf (b : Buf) : Prop :=
  b.len = pieceLenSum b.pieces ∧
  ∀ p ∈ b.pieces, p.off1 < p.off2 ∧ p.off2 ≤ b.bytes.length

instance (b : Buf) : Decidable b.Wf := by
  unfold Buf.Wf; infer_instance

/-- The marker invariant claimed by the spec: every registered marker
offset lies inside `[0, len]`. -/
def MarkerInv (b : Buf) : Prop :=
  ∀ q ∈ b.markers, 0 ≤ q.2 ∧ q.2 ≤ (b.len : Int)

instance (b : Buf) : Decidable (MarkerInv b) := by
  unfold MarkerInv; infer_instance

/-- The operations of the public editing interface that touch the
observer registry: insert, delete, and marker creation. -/
inductive Op where
  | ins (off : Int) (s : List Nat)
  | del (off1 off2 : Int)
  | mark (off : Int)
deriving DecidableEq, Repr

/-- Apply one operation; `none` models a panic. -/
def applyOp (b : Buf) : Op → Option Buf
  | .ins off s => b.insert off s
  | .del o1 o2 => b.delete o1 o2
  | .mark off => some (b.newMarker off).1

/-- Run a list of operations; `none` as soon as one panics. -/
def runOps (b : Buf) : List Op → Option Buf
  | [] => some b
  | op :: ops =>
    match applyOp b op with
    | none => none
    | some b2 => runOps b2 ops

/-- A trace of successful operations from `b` ending in `bf` in which
every marker is created at an offset inside `[0, len]` and no delete
strictly contains a registered marker at the moment it runs (the side
condition of the amended marker invariant). -/
inductive GoodTrace : Buf → List Op → Buf → Prop where
  | nil (b : Buf) : GoodTrace b [] b
  | insStep (b b2 bf : Buf) (off : Int) (s : List Nat) (ops : List Op) :
      b.insert off s = some b2 → GoodTrace b2 ops bf →
      GoodTrace b (.ins off s :: ops) bf
  | delStep (b b2 bf : Buf) (o1 o2 : Int) (ops : List Op) :
      b.delete o1 o2 = some b2 →
      (∀ q ∈ b.markers, q.2 ≤ o1 ∨ o2 ≤ q.2) →
      GoodTrace b2 ops bf → GoodTrace b (.del o1 o2 :: ops) bf
  | markStep (b bf : Buf) (off : Int) (ops : List Op) :
      0 ≤ off → off ≤ (b.len : Int) →
      GoodTrace (b.newMarker off).1 ops bf → GoodTrace b (.mark off :: ops) bf

/-- Index of the first newline byte of `s`, if any. -/
def firstNl : List Nat → Option Nat
  | [] => none
  | c :: rest => if c = 10 then some 0 else (firstNl rest).map (· + 1)

/-- Offset of the first byte of the last line of `s`: zero when `s`
contains no newline, otherwise one past the last newline byte. -/
def lastLineStart : List Nat → Nat
  | [] => 0
  | c :: rest =>
    if c = 10 then 1 + lastLineStart rest
    else if lastLineStart rest = 0 then 0 else 1 + lastLineStart rest

/-- A buffer holding `s` as a single piece: the result of `Insert(0, s)`
on the empty buffer. -/
def singlePieceBuf (s : List Nat) : Buf :=
  (Buf.init.insert 0 s).getD Buf.init

/-- The rune a forward rune read yields at position `i` of a
single-piece document `s`. -/
def spRuneVal (s : List Nat) (i : Nat) : Nat :=
  if s.getD i 0 < 0x80 then s.getD i 0 else (utf8DecodeRune (s.drop i)).1

/-- The position a forward rune read at position `i` of a single-piece
document `s` leaves the reader at: one byte for ASCII, the decoded size
for a rune that is complete in the piece, and the end of the document
for the staging fall-back (which drains the at most three remaining
bytes). -/
def spNext (s : List Nat) (i : Nat) : Nat :=
  if s.getD i 0 < 0x80 then i + 1
  else if utf8FullRune (s.drop i) then i + (utf8DecodeRune (s.drop i)).2
  else s.length

/-- The reader states that a forward scan of a single-piece buffer
moves through: position `i`, either inside the unique piece or just
past it on the sentinel at end of document. -/
def SPReader (s : List Nat) (rd : Reader) (i : Nat) : Prop :=
  rd.rev = false ∧ rd.off = i ∧
  ((rd.pieceIdx = 0 ∧ rd.offInPiece = (i : Int) ∧ i ≤ s.length) ∨
   (rd.pieceIdx = 1 ∧ rd.offInPiece = 0 ∧ i = s.length))

/-! ### Concrete buffers used in the evaluations -/

/-- Two pieces `[0xC3]` and `[0xA9, 'x', 'y']`: the two-byte rune
U+00E9 straddles the piece boundary.  Built by `Insert(0, [0xA9 78 79])`
then `Insert(0, [0xC3])`. -/
def straddledBuf : Buf :=
  (((Buf.init.insert 0 [0xA9, 0x78, 0x79]).getD Buf.init).insert 0 [0xC3]).getD Buf.init

/-- Two pieces `"a"` and `"bcd"`, document `"abcd"` (well-formed ASCII
UTF-8).  Built by `Insert(0, "bcd")` then `Insert(0, "a")`. -/
def asciiTwoPieceBuf : Buf :=
  (((Buf.init.insert 0 [98, 99, 100]).getD Buf.init).insert 0 [97]).getD Buf.init

/-- Two pieces `"a"` and `"x\nz"`, document `"ax\nz"` with one newline.
Built by `Insert(0, "x\nz")` then `Insert(0, "a")`. -/
def axnzBuf : Buf :=
  (((Buf.init.insert 0 [120, 10, 122]).getD Buf.init).insert 0 [97]).getD Buf.init

/-! ### C1 -/

/-- C1: reading the two-byte rune U+00E9 forward succeeds, but reading
the same range with a reversed reader does not return the same rune:
the backward decoder accumulates bytes in reverse document order, and
`utf8.FullRune` accepts the lone continuation byte 0xA9 as a complete
(invalid) encoding, so the first backward read yields U+FFFD with size
1 instead of U+00E9 with size 2. -/
theorem reverseReadMultibyteDiverges :
    Buf.init.insert 0 [0xC3, 0xA9] = some (singlePieceBuf [0xC3, 0xA9]) ∧
    readRune (singlePieceBuf [0xC3, 0xA9])
        ((singlePieceBuf [0xC3, 0xA9]).newReader 0) =
      .val 0xE9 2 ⟨0, 2, 2, false, 2⟩ ∧
    readRune (singlePieceBuf [0xC3, 0xA9])
        (((singlePieceBuf [0xC3, 0xA9]).newReader 2).reverseDir) =
      .val runeError 1 ⟨0, 1, 1, true, 1⟩ ∧
    runeError ≠ 0xE9 := by
  refine ⟨by decide, by decide, by decide, by decide⟩

/-! ### C2 -/

/-- C2: at a piece boundary the staging fall-back of
`readRuneForward` decodes the straddling rune U+00E9 (size 2) but
advances the absolute offset by the full staging read of 4 bytes, from
0 to 4 rather than to 2. -/
theorem stagingReadOveradvances :
    straddledBuf.string = [0xC3, 0xA9, 0x78, 0x79] ∧
    (straddledBuf.newReader 0).off = 0 ∧
    readRune straddledBuf (straddledBuf.newReader 0) =
      .val 0xE9 2 ⟨1, 3, 4, false, 2⟩ ∧
    (4 : Nat) ≠ 0 + 2 := by
  refine ⟨by decide, by decide, by decide, by decide⟩

/-! ### C7 -/

/-- C7 evaluation at the failing input: on the two-piece well-formed
ASCII document `"abcd"`, offset 2 is a rune boundary, yet
`PositionFromOffset(2)` fails: the staging fall-back at the piece
boundary advances the reader from offset 1 straight to 4, the loop
never observes offset 2, and the scan runs into EOF. -/
theorem positionFromOffsetMultipieceFails :
    asciiTwoPieceBuf.string = [97, 98, 99, 100] ∧
    asciiTwoPieceBuf.positionFromOffset 2 = none ∧
    asciiTwoPieceBuf.positionFromOffset 1 = some (1, 2) := by
  refine ⟨by decide, by decide, by decide⟩

/-! ### C8 -/

/-- C8 evaluation at the failing input: the two-piece document
`"ax\nz"` contains one newline, so the claim demands `Lines() = 2`,
but the staging fall-back at the piece boundary consumes `"x\nz"` in
one read and reports only the rune `x`, so the newline is never seen
and `Lines()` returns 1. -/
theorem linesMultipieceUndercounts :
    axnzBuf.string = [97, 120, 10, 122] ∧
    axnzBuf.string.count 10 = 1 ∧
    axnzBuf.string ≠ [] ∧
    (axnzBuf.linesFn).1 = 1 := by
  refine ⟨by decide, by decide, by decide, by decide⟩

/-! ### C9 -/

/-- A valid insert never panics. -/
lemma insert_isSome (b : Buf) (off : Int) (s : List Nat)
    (h : ¬(off < 0 ∨ (b.len : Int) < off)) : ∃ b2, b.insert off s = some b2 := by
  unfold Buf.insert
  rw [if_neg h]
  by_cases hs : s = []
  · rw [if_pos hs]; exact ⟨b, rfl⟩
  · rw [if_neg hs]
    dsimp only
    split <;> exact ⟨_, rfl⟩

/-- A valid delete never panics. -/
lemma delete_isSome (b : Buf) (o1 o2 : Int)
    (h : ¬(o2 < o1 ∨ o1 < 0 ∨ (b.len : Int) < o2)) : ∃ b2, b.delete o1 o2 = some b2 := by
  unfold Buf.delete
  rw [if_neg h]
  by_cases he : o1 = o2
  · rw [if_pos he]; exact ⟨b, rfl⟩
  · rw [if_neg he]
    dsimp only
    exact ⟨_, rfl⟩

/-- C9: `Insert` panics exactly when the offset is outside `[0, len]`,
and inserting the empty byte string at a valid offset returns the
buffer completely unchanged (same piece list, line cache and observer
registry — no observer is notified); `Delete` panics exactly when the
range is not a valid subrange of `[0, len]`, and deleting an empty
range at a valid offset likewise returns the buffer unchanged. -/
theorem insertDeletePreconditionsNoop (b : Buf) (off o1 o2 : Int) (s : List Nat) :
    (b.insert off s = none ↔ off < 0 ∨ (b.len : Int) < off) ∧
    (b.insert off [] = if off < 0 ∨ (b.len : Int) < off then none else some b) ∧
    (b.delete o1 o2 = none ↔ o2 < o1 ∨ o1 < 0 ∨ (b.len : Int) < o2) ∧
    (b.delete o1 o1 = if o1 < 0 ∨ (b.len : Int) < o1 then none else some b) := by
  refine ⟨?_, ?_, ?_, ?_⟩
  · constructor
    · intro hn
      by_contra hcond
      obtain ⟨b2, hb2⟩ := insert_isSome b off s hcond
      rw [hb2] at hn
      exact Option.noConfusion hn
    · intro hcond
      unfold Buf.insert
      rw [if_pos hcond]
  · unfold Buf.insert
    split_ifs <;> simp_all
  · constructor
    · intro hn
      by_contra hcond
      obtain ⟨b2, hb2⟩ := delete_isSome b o1 o2 hcond
      rw [hb2] at hn
      exact Option.noConfusion hn
    · intro hcond
      unfold Buf.delete
      rw [if_pos hcond]
  · unfold Buf.delete
    by_cases hc : o1 < 0 ∨ (b.len : Int) < o1
    · rw [if_pos (show o1 < o1 ∨ o1 < 0 ∨ (b.len : Int) < o1 by omega), if_pos hc]
    · rw [if_neg (show ¬(o1 < o1 ∨ o1 < 0 ∨ (b.len : Int) < o1) by omega),
        if_pos rfl, if_neg hc]

/-- Witness for C9 at a concrete buffer: on `"Hello"` an empty insert
at 3 and an empty delete at 3 are accepted no-ops and an insert at 6
panics. -/
theorem insertDeletePreconditionsNoopWitness :
    (singlePieceBuf [72, 101, 108, 108, 111]).insert 3 [] =
      some (singlePieceBuf [72, 101, 108, 108, 111]) ∧
    (singlePieceBuf [72, 101, 108, 108, 111]).insert 6 [72] = none := by
  constructor
  · have h := (insertDeletePreconditionsNoop
      (singlePieceBuf [72, 101, 108, 108, 111]) 3 0 0 []).2.1
    rw [h]; decide
  · have h := (insertDeletePreconditionsNoop
      (singlePieceBuf [72, 101, 108, 108, 111]) 6 0 0 [72]).1
    rw [h]; decide

/-! ### C5 -/

/-- C5: the marker update policy.  For an insertion of `n` bytes at
`off`: a marker at or after `off` shifts right by `n`, a marker
strictly before `off` is unchanged.  For a deletion of `[off1, off2)`
(a valid range, `off1 ≤ off2`): a marker at or after `off2` shifts left
by the deleted length, and a marker at or before `off1` is unchanged. -/
theorem markerUpdatePolicy (off off1 off2 m : Int) (n : Nat) (h : off1 ≤ off2) :
    (off ≤ m → markerOnBufInsert off n m = m + n) ∧
    (m < off → markerOnBufInsert off n m = m) ∧
    (off2 ≤ m → markerOnBufDelete off1 off2 m = m - (off2 - off1)) ∧
    (m ≤ off1 → markerOnBufDelete off1 off2 m = m) := by
  unfold markerOnBufInsert markerOnBufDelete
  refine ⟨fun h2 => ?_, fun h2 => ?_, fun h2 => ?_, fun h2 => ?_⟩ <;>
    split_ifs <;> omega

/-- Witness for C5: a marker at 2 shifts to 5 under an insert of three
bytes at 1. -/
theorem markerUpdatePolicyWitness : markerOnBufInsert 1 3 2 = 5 :=
  (markerUpdatePolicy 1 0 2 2 3 (by decide)).1 (by decide)

/-! ### C10 -/

/-- C10: a marker strictly inside a deleted range is left unchanged by
the delete notification — it is not clamped to `off1` — and it may
afterwards exceed the new document length: deleting all of `"Hello"`
around a marker at offset 4 leaves the marker at 4 with `len = 0`. -/
theorem markerInsideDeleteUnchanged :
    (∀ off1 off2 m : Int, off1 < m → m < off2 →
      markerOnBufDelete off1 off2 m = m) ∧
    (runOps Buf.init [.ins 0 [72, 101, 108, 108, 111], .mark 4, .del 0 5]).map
        (fun bf => (bf.markers, bf.len)) = some ([(0, 4)], 0) := by
  constructor
  · intro off1 off2 m h1 h2
    unfold markerOnBufDelete
    split_ifs <;> omega
  · decide

/-- Witness for C10: the marker at 3 strictly inside the deleted range
`[1, 5)` keeps its offset. -/
theorem markerInsideDeleteUnchangedWitness : markerOnBufDelete 1 5 3 = 3 :=
  markerInsideDeleteUnchanged.1 1 5 3 (by decide) (by decide)

/-! ### C4 -/

/-- Effect of a successful insert on length and markers: either the
empty no-op, or length grows by `|s|` and every marker is notified. -/
lemma insert_some_spec (b b2 : Buf) (off : Int) (s : List Nat)
    (h : b.insert off s = some b2) :
    (s = [] ∧ b2 = b) ∨
    (b2.len = b.len + s.length ∧
     b2.markers = b.markers.map fun q => (q.1, markerOnBufInsert off s.length q.2)) := by
  unfold Buf.insert at h
  split_ifs at h with h1 h2
  · exact Or.inl ⟨h2, (Option.some.inj h).symm⟩
  · right
    dsimp only at h
    split at h <;> (cases Option.some.inj h; exact ⟨rfl, rfl⟩)

/-- Effect of a successful delete on length and markers: either the
empty no-op, or the range is valid, length shrinks by its size and
every marker is notified. -/
lemma delete_some_spec (b b2 : Buf) (o1 o2 : Int)
    (h : b.delete o1 o2 = some b2) :
    (o1 = o2 ∧ b2 = b) ∨
    (0 ≤ o1 ∧ o1 ≤ o2 ∧ o2 ≤ (b.len : Int) ∧
     b2.len = b.len - (o2.toNat - o1.toNat) ∧
     b2.markers = b.markers.map fun q => (q.1, markerOnBufDelete o1 o2 q.2)) := by
  unfold Buf.delete at h
  split_ifs at h with h1 h2
  · exact Or.inl ⟨h2, (Option.some.inj h).symm⟩
  · push_neg at h1
    right
    dsimp only at h
    cases Option.some.inj h
    exact ⟨by omega, by omega, by omega, rfl, rfl⟩

/-- The induction behind the amended marker invariant: along a trace of
valid operations that creates markers in range and never deletes a
range strictly containing a marker, the invariant `0 ≤ m ≤ len` is
preserved. -/
lemma goodTrace_markerInv (b bf : Buf) (ops : List Op)
    (h : GoodTrace b ops bf) (hinv : MarkerInv b) : MarkerInv bf := by
  induction h with
  | nil b => exact hinv
  | insStep b b2 bf off s ops hins htr ih =>
    apply ih
    intro q hq
    rcases insert_some_spec b b2 off s hins with ⟨_, rfl⟩ | ⟨hlen, hmk⟩
    · exact hinv q hq
    · rw [hmk] at hq
      obtain ⟨q0, hq0, rfl⟩ := List.mem_map.mp hq
      have hb := hinv q0 hq0
      dsimp only
      unfold markerOnBufInsert
      rw [hlen]
      split_ifs <;> constructor <;> push_cast <;> omega
  | delStep b b2 bf o1 o2 ops hdel hside htr ih =>
    apply ih
    intro q hq
    rcases delete_some_spec b b2 o1 o2 hdel with ⟨_, rfl⟩ | ⟨h0, h12, h2l, hlen, hmk⟩
    · exact hinv q hq
    · rw [hmk] at hq
      obtain ⟨q0, hq0, rfl⟩ := List.mem_map.mp hq
      have hb := hinv q0 hq0
      have hs := hside q0 hq0
      dsimp only
      unfold markerOnBufDelete
      rw [hlen]
      split_ifs <;> constructor <;> omega
  | markStep b bf off ops h0 hl htr ih =>
    apply ih
    intro q hq
    rcases List.mem_append.mp hq with hq | hq
    · exact hinv q hq
    · rcases List.mem_singleton.mp hq with rfl
      exact ⟨h0, hl⟩

/-- C4 amended: starting from the empty buffer, along every trace of
valid operations in which each marker is created at an offset inside
`[0, len]` and no delete has a registered marker strictly inside its
range, every registered marker offset `m` satisfies `0 ≤ m ≤ len`
after each operation (in particular at the end of the trace). -/
theorem markerInvariantAmended (ops : List Op) (bf : Buf)
    (h : GoodTrace Buf.init ops bf) : MarkerInv bf :=
  goodTrace_markerInv Buf.init bf ops h (by intro q hq; cases hq)

/-- Witness for the amended C4 at a concrete one-step trace. -/
theorem markerInvariantAmendedWitness : MarkerInv (Buf.init.newMarker 0).1 :=
  markerInvariantAmended [.mark 0] (Buf.init.newMarker 0).1
    (GoodTrace.markStep Buf.init (Buf.init.newMarker 0).1 0 []
      (by decide) (by decide) (GoodTrace.nil (Buf.init.newMarker 0).1))

/-- Counterexample to C4 as stated: the valid operations insert
`"Hi"`, create a marker at offset 1, delete `[0, 2)`.  The marker sits
strictly inside the deleted range, stays at 1, and the final length is
0, violating `m ≤ len`. -/
theorem markerInvariantCounterexample :
    ∃ bf, runOps Buf.init [.ins 0 [72, 105], .mark 1, .del 0 2] = some bf ∧
      ¬ MarkerInv bf := by
  refine ⟨_, rfl, ?_⟩
  decide

/-! ### C6: infrastructure about the piece scan and the document content -/

@[simp] lemma pieceLenSum_nil : pieceLenSum [] = 0 := rfl

@[simp] lemma pieceLenSum_cons (p : Piece) (l : List Piece) :
    pieceLenSum (p :: l) = p.len + pieceLenSum l := by
  unfold pieceLenSum
  simp

@[simp] lemma pieceLenSum_append (l1 l2 : List Piece) :
    pieceLenSum (l1 ++ l2) = pieceLenSum l1 + pieceLenSum l2 := by
  unfold pieceLenSum
  simp

/-- The scan skips any prefix whose total length lies at or before the
target offset. -/
lemma findPieceAux_skip (off : Nat) (pre post : List Piece) (start idx : Nat)
    (h : start + pieceLenSum pre ≤ off) :
    findPieceAux off (pre ++ post) start idx =
      findPieceAux off post (start + pieceLenSum pre) (idx + pre.length) := by
  induction pre generalizing start idx with
  | nil => simp [findPieceAux]
  | cons p rest ih =>
    simp only [List.cons_append, findPieceAux]
    rw [if_neg (by simp at h; omega)]
    have hrec := ih (start + p.len) (idx + 1) (by simp at h ⊢; omega)
    simp only [List.append_eq] at hrec ⊢
    rw [hrec, pieceLenSum_cons, List.length_cons,
      show start + (p.len + pieceLenSum rest) = start + p.len + pieceLenSum rest by omega,
      show idx + (rest.length + 1) = idx + 1 + rest.length by omega]

/-- The scan finds the piece that contains the offset: if the pieces
before it sum to `o` and `o ≤ a < o + p.len`, the result is `(o, i)`
with `i` the position of `p`. -/
lemma findPiece_inside (b : Buf) (L1 L2 : List Piece) (p : Piece) (a : Nat)
    (hL : b.pieces = L1 ++ p :: L2) (h1 : pieceLenSum L1 ≤ a)
    (h2 : a < pieceLenSum L1 + p.len) :
    b.findPiece a = (pieceLenSum L1, L1.length) := by
  unfold Buf.findPiece
  rw [hL, findPieceAux_skip a L1 (p :: L2) 0 0 (by omega)]
  simp only [findPieceAux]
  rw [if_pos ⟨by omega, by omega⟩]
  simp

/-- At or past the end of the document the scan returns the sentinel. -/
lemma findPiece_sentinel (b : Buf) (a : Nat) (h : pieceLenSum b.pieces ≤ a) :
    b.findPiece a = (pieceLenSum b.pieces, b.pieces.length) := by
  unfold Buf.findPiece
  have := findPieceAux_skip a b.pieces [] 0 0 (by omega)
  rw [List.append_nil] at this
  rw [this]
  simp [findPieceAux]

/-- Any offset strictly inside the document decomposes the piece list
around the piece containing it. -/
lemma exists_decomp (L : List Piece) (a : Nat) (h : a < pieceLenSum L) :
    ∃ L1 p L2, L = L1 ++ p :: L2 ∧ pieceLenSum L1 ≤ a ∧
      a < pieceLenSum L1 + p.len := by
  induction L generalizing a with
  | nil => simp at h
  | cons p rest ih =>
    by_cases hp : a < p.len
    · exact ⟨[], p, rest, rfl, by simp, by simpa using hp⟩
    · obtain ⟨L1, q, L2, hEq, hs1, hs2⟩ := ih (a - p.len) (by simp at h; omega)
      exact ⟨p :: L1, q, L2, by simp [hEq], by simp; omega, by simp; omega⟩

/-- Raw form of `findPiece_inside` on the scan function. -/
lemma findPieceAux_inside (L1 L2 : List Piece) (p : Piece) (a : Nat)
    (h1 : pieceLenSum L1 ≤ a) (h2 : a < pieceLenSum L1 + p.len) :
    findPieceAux a (L1 ++ p :: L2) 0 0 = (pieceLenSum L1, L1.length) := by
  rw [findPieceAux_skip a L1 (p :: L2) 0 0 (by omega)]
  simp only [findPieceAux]
  rw [if_pos ⟨by omega, by omega⟩]
  simp

/-- Raw form of `findPiece_sentinel` on the scan function. -/
lemma findPieceAux_sentinel (L : List Piece) (a : Nat) (h : pieceLenSum L ≤ a) :
    findPieceAux a L 0 0 = (pieceLenSum L, L.length) := by
  have hsk := findPieceAux_skip a L [] 0 0 (by omega)
  rw [List.append_nil] at hsk
  rw [hsk]
  simp [findPieceAux]

/-- `getD` at the junction of an append. -/
lemma getD_append_cons (L1 L2 : List Piece) (p d : Piece) :
    (L1 ++ p :: L2).getD L1.length d = p := by
  induction L1 with
  | nil => rfl
  | cons q rest ih => simpa using ih

/-- The document content determined by a byte store and a piece list. -/
def listContent (store : List Nat) (l : List Piece) : List Nat :=
  (l.map fun p => (store.drop p.off1).take (p.off2 - p.off1)).flatten

lemma string_eq_listContent (b : Buf) : b.string = listContent b.bytes b.pieces := rfl

@[simp] lemma listContent_nil (store : List Nat) : listContent store [] = [] := rfl

@[simp] lemma listContent_cons (store : List Nat) (p : Piece) (l : List Piece) :
    listContent store (p :: l) =
      (store.drop p.off1).take (p.off2 - p.off1) ++ listContent store l := rfl

@[simp] lemma listContent_append (store : List Nat) (l1 l2 : List Piece) :
    listContent store (l1 ++ l2) = listContent store l1 ++ listContent store l2 := by
  unfold listContent
  simp

/-- A piece entirely inside the byte store reads the same slice after
the store is extended. -/
lemma slice_store_append (store s : List Nat) (p : Piece)
    (h1 : p.off1 ≤ p.off2) (h : p.off2 ≤ store.length) :
    (((store ++ s).drop p.off1).take (p.off2 - p.off1)) =
      ((store.drop p.off1).take (p.off2 - p.off1)) := by
  rw [List.drop_append_of_le_length (by omega)]
  rw [List.take_append_of_le_length (by simp; omega)]

/-- Extending the store does not change the content of pieces that lie
inside it. -/
lemma listContent_store_append (store s : List Nat) (l : List Piece)
    (h : ∀ p ∈ l, p.off1 ≤ p.off2 ∧ p.off2 ≤ store.length) :
    listContent (store ++ s) l = listContent store l := by
  induction l with
  | nil => rfl
  | cons p rest ih =>
    simp only [listContent_cons]
    rw [slice_store_append store s p (h p (by simp)).1 (h p (by simp)).2]
    rw [ih fun q hq => h q (by simp [hq])]

/-- Raw-offset version of the store extension lemma. -/
lemma slice_store_append' (store s : List Nat) (o1 o2 : Nat)
    (h1 : o1 ≤ o2) (h2 : o2 ≤ store.length) :
    ((store ++ s).drop o1).take (o2 - o1) = (store.drop o1).take (o2 - o1) := by
  rw [List.drop_append_of_le_length (by omega)]
  rw [List.take_append_of_le_length (by simp; omega)]

/-- Splitting a piece at an interior point splits its slice. -/
lemma slice_split (store : List Nat) (o1 k o2 : Nat) (h : k ≤ o2 - o1) :
    (store.drop o1).take (o2 - o1) =
      (store.drop o1).take k ++ (store.drop (o1 + k)).take (o2 - (o1 + k)) := by
  have h2 : o2 - o1 = k + (o2 - (o1 + k)) := by omega
  rw [h2, List.take_add]
  congr 1
  rw [List.drop_drop]
  try congr 1
  try omega

/-- Result of a nonempty insert whose offset falls on a piece
boundary (`offset == pieceStart`, including the sentinel at end of
document): the new piece is spliced in before piece `i`. -/
lemma insert_eq_boundary (b : Buf) (a i : Nat) (s : List Nat) (hs : s ≠ [])
    (ha : a ≤ b.len) (hfp : findPieceAux a b.pieces 0 0 = (a, i)) :
    b.insert (a : Int) s = some
      { b with
        lineCacheLine := 0
        lines := 0
        markers := b.markers.map fun q => (q.1, markerOnBufInsert (a : Int) s.length q.2)
        bytes := b.bytes ++ s
        pieces := b.pieces.take i ++ [⟨b.bytes.length, b.bytes.length + s.length⟩] ++
          b.pieces.drop i
        len := b.len + s.length } := by
  unfold Buf.insert Buf.findPiece
  rw [if_neg (by omega), if_neg hs]
  dsimp only
  simp only [Int.toNat_natCast]
  rw [hfp]
  dsimp only
  rw [if_pos rfl]

/-- Result of a nonempty insert whose offset falls strictly inside
piece `i` (with start `o`): the piece is split and the new piece is
spliced in between the halves. -/
lemma insert_eq_split (b : Buf) (a o i : Nat) (s : List Nat) (hs : s ≠ [])
    (ha : a ≤ b.len) (hfp : findPieceAux a b.pieces 0 0 = (o, i)) (hne : a ≠ o) :
    b.insert (a : Int) s = some
      { b with
        lineCacheLine := 0
        lines := 0
        markers := b.markers.map fun q => (q.1, markerOnBufInsert (a : Int) s.length q.2)
        bytes := b.bytes ++ s
        pieces := b.pieces.take i ++
          [⟨(b.pieces.getD i ⟨0, 0⟩).off1, (b.pieces.getD i ⟨0, 0⟩).off1 + (a - o)⟩,
           ⟨b.bytes.length, b.bytes.length + s.length⟩,
           ⟨(b.pieces.getD i ⟨0, 0⟩).off1 + (a - o), (b.pieces.getD i ⟨0, 0⟩).off2⟩] ++
          b.pieces.drop (i + 1)
        len := b.len + s.length } := by
  unfold Buf.insert Buf.findPiece
  rw [if_neg (by omega), if_neg hs]
  dsimp only
  simp only [Int.toNat_natCast]
  rw [hfp]
  dsimp only
  rw [if_neg hne]

/-- Result of a delete whose two endpoints both fall on piece
boundaries (starts of pieces `i1` and `i2`, or the sentinel): the
pieces in between are dropped with no splitting. -/
lemma delete_eq_boundaries (b : Buf) (a1 a2 i1 i2 : Nat) (h12 : a1 < a2)
    (h2l : a2 ≤ b.len)
    (hfp1 : findPieceAux a1 b.pieces 0 0 = (a1, i1))
    (hfp2 : findPieceAux a2 b.pieces 0 0 = (a2, i2)) :
    b.delete (a1 : Int) (a2 : Int) = some
      { b with
        lineCacheLine := 0
        lines := 0
        markers := b.markers.map fun q => (q.1, markerOnBufDelete (a1 : Int) (a2 : Int) q.2)
        pieces := b.pieces.take i1 ++ b.pieces.drop i2
        len := b.len - (a2 - a1) } := by
  unfold Buf.delete Buf.findPiece
  rw [if_neg (by omega), if_neg (by omega)]
  dsimp only
  simp only [Int.toNat_natCast]
  rw [hfp1, hfp2]
  dsimp only
  rw [if_pos rfl, if_pos rfl]

/-- C6: for every well-formed buffer, valid offset `a` and byte string
`s`, `insert(a, s)` followed by `delete(a, a + |s|)` succeeds and
restores the observable state of the buffer: the length and the string
materialization equal their values before the insert.  (The byte store
keeps the appended bytes and a piece split at `a` may persist, but
neither is observable through `len` or `string`.) -/
theorem insertDeleteRoundtrip (b : Buf) (hwf : b.Wf) (a : Nat) (ha : a ≤ b.len) (s : List Nat) :
    ∃ b2 b3, b.insert (a : Int) s = some b2 ∧
      b2.delete (a : Int) ((a : Int) + (s.length : Int)) = some b3 ∧
      b3.len = b.len ∧ b3.string = b.string := by
  obtain ⟨hsum, hpc⟩ := hwf
  have hcast : (a : Int) + (s.length : Int) = ((a + s.length : Nat) : Int) := by push_cast; ring
  rw [hcast]
  by_cases hs : s = []
  · subst hs
    refine ⟨b, b, ?_, ?_, rfl, rfl⟩
    · unfold Buf.insert
      rw [if_neg (by omega), if_pos rfl]
    · unfold Buf.delete
      rw [if_neg (by simp; omega), if_pos (by simp)]
  · have hn0 : 0 < s.length := List.length_pos.mpr hs
    have hlenL : pieceLenSum b.pieces = b.len := hsum.symm
    have hnpl : (⟨b.bytes.length, b.bytes.length + s.length⟩ : Piece).len = s.length := by
      show b.bytes.length + s.length - b.bytes.length = s.length
      omega
    by_cases hA : a = b.len
    · -- insert at end of document: new piece appended at the tail
      have hfp : findPieceAux a b.pieces 0 0 = (a, b.pieces.length) := by
        rw [findPieceAux_sentinel b.pieces a (by omega), hlenL, hA]
      have hins := insert_eq_boundary b a b.pieces.length s hs ha hfp
      rw [List.take_length, List.drop_length, List.append_nil] at hins
      refine ⟨_, _, hins,
        delete_eq_boundaries _ a (a + s.length) b.pieces.length (b.pieces.length + 1)
          (by omega) ?_ ?_ ?_, ?_, ?_⟩
      · show a + s.length ≤ b.len + s.length
        omega
      · show findPieceAux a
          (b.pieces ++ [(⟨b.bytes.length, b.bytes.length + s.length⟩ : Piece)]) 0 0 =
          (a, b.pieces.length)
        have h0 := findPieceAux_inside b.pieces []
          (⟨b.bytes.length, b.bytes.length + s.length⟩ : Piece) a (by omega)
          (by rw [hnpl]; omega)
        rw [h0, hlenL, hA]
      · show findPieceAux (a + s.length)
          (b.pieces ++ [(⟨b.bytes.length, b.bytes.length + s.length⟩ : Piece)]) 0 0 =
          (a + s.length, b.pieces.length + 1)
        have h0 := findPieceAux_sentinel
          (b.pieces ++ [(⟨b.bytes.length, b.bytes.length + s.length⟩ : Piece)]) (a + s.length)
          (by rw [pieceLenSum_append, pieceLenSum_cons, pieceLenSum_nil, hnpl]; omega)
        rw [h0]
        simp only [pieceLenSum_append, pieceLenSum_cons, pieceLenSum_nil, hnpl,
          List.length_append, List.length_cons, List.length_nil, hlenL, hA,
          Prod.mk.injEq]
        simp
      · show b.len + s.length - (a + s.length - a) = b.len
        omega
      · show Buf.string _ = Buf.string b
        rw [string_eq_listContent, string_eq_listContent]
        show listContent (b.bytes ++ s)
          ((b.pieces ++ [(⟨b.bytes.length, b.bytes.length + s.length⟩ : Piece)]).take
              b.pieces.length ++
           (b.pieces ++ [(⟨b.bytes.length, b.bytes.length + s.length⟩ : Piece)]).drop
              (b.pieces.length + 1)) =
          listContent b.bytes b.pieces
        rw [List.take_left, List.drop_append 1]
        simp only [List.drop_succ_cons, List.drop_nil, List.append_nil]
        exact listContent_store_append b.bytes s b.pieces
          fun p hp => ⟨(hpc p hp).1.le, (hpc p hp).2⟩
    · -- a < len: decompose the piece list around the piece containing a
      have haltL : a < pieceLenSum b.pieces := by omega
      obtain ⟨L1, p, L2, hL, hge, hlt⟩ := exists_decomp b.pieces a haltL
      have hpmem : p ∈ b.pieces := by rw [hL]; simp
      have hpp := hpc p hpmem
      have hplen : p.len = p.off2 - p.off1 := rfl
      by_cases hB : a = pieceLenSum L1
      · -- insert at the start of piece p
        have hfp : findPieceAux a b.pieces 0 0 = (a, L1.length) := by
          rw [hL, findPieceAux_inside L1 L2 p a (by omega) (by omega), hB]
        have hins := insert_eq_boundary b a L1.length s hs ha hfp
        rw [hL, List.take_left, List.drop_left, List.append_assoc,
          List.singleton_append] at hins
        refine ⟨_, _, hins,
          delete_eq_boundaries _ a (a + s.length) L1.length (L1.length + 1)
            (by omega) ?_ ?_ ?_, ?_, ?_⟩
        · show a + s.length ≤ b.len + s.length
          omega
        · show findPieceAux a
            (L1 ++ (⟨b.bytes.length, b.bytes.length + s.length⟩ : Piece) :: p :: L2) 0 0 =
            (a, L1.length)
          have h0 := findPieceAux_inside L1 (p :: L2)
            (⟨b.bytes.length, b.bytes.length + s.length⟩ : Piece) a (by omega)
            (by rw [hnpl]; omega)
          rw [h0, hB]
        · show findPieceAux (a + s.length)
            (L1 ++ (⟨b.bytes.length, b.bytes.length + s.length⟩ : Piece) :: p :: L2) 0 0 =
            (a + s.length, L1.length + 1)
          have h0 := findPieceAux_inside
            (L1 ++ [(⟨b.bytes.length, b.bytes.length + s.length⟩ : Piece)]) L2 p
            (a + s.length)
            (by rw [pieceLenSum_append, pieceLenSum_cons, pieceLenSum_nil, hnpl]; omega)
            (by rw [pieceLenSum_append, pieceLenSum_cons, pieceLenSum_nil, hnpl]; omega)
          rw [List.append_assoc, List.singleton_append] at h0
          rw [h0, pieceLenSum_append, pieceLenSum_cons, pieceLenSum_nil, hnpl,
            List.length_append]
          simp only [List.length_cons, List.length_nil, Prod.mk.injEq]
          constructor <;> first | omega | trivial
        · show b.len + s.length - (a + s.length - a) = b.len
          omega
        · show Buf.string _ = Buf.string b
          rw [string_eq_listContent, string_eq_listContent]
          show listContent (b.bytes ++ s)
            ((L1 ++ (⟨b.bytes.length, b.bytes.length + s.length⟩ : Piece) :: p :: L2).take
                L1.length ++
             (L1 ++ (⟨b.bytes.length, b.bytes.length + s.length⟩ : Piece) :: p :: L2).drop
                (L1.length + 1)) =
            listContent b.bytes b.pieces
          rw [List.take_left, List.drop_append 1]
          simp only [List.drop_succ_cons, List.drop_zero]
          rw [← hL]
          exact listContent_store_append b.bytes s b.pieces
            fun q hq => ⟨(hpc q hq).1.le, (hpc q hq).2⟩
      · -- insert strictly inside piece p: the piece is split
        have ho : pieceLenSum L1 < a := by omega
        have hfp : findPieceAux a b.pieces 0 0 = (pieceLenSum L1, L1.length) := by
          rw [hL]
          exact findPieceAux_inside L1 L2 p a (by omega) (by omega)
        have hins := insert_eq_split b a (pieceLenSum L1) L1.length s hs ha hfp hB
        have hgd : b.pieces.getD L1.length ⟨0, 0⟩ = p := by
          rw [hL]; exact getD_append_cons L1 L2 p ⟨0, 0⟩
        rw [hgd, hL, List.take_left, List.drop_append 1] at hins
        simp only [List.drop_succ_cons, List.drop_zero, List.append_assoc,
          List.cons_append, List.nil_append] at hins
        have hpl : (⟨p.off1, p.off1 + (a - pieceLenSum L1)⟩ : Piece).len =
            a - pieceLenSum L1 := by
          show p.off1 + (a - pieceLenSum L1) - p.off1 = a - pieceLenSum L1
          omega
        have hprl : (⟨p.off1 + (a - pieceLenSum L1), p.off2⟩ : Piece).len =
            p.off2 - (p.off1 + (a - pieceLenSum L1)) := rfl
        refine ⟨_, _, hins,
          delete_eq_boundaries _ a (a + s.length) (L1.length + 1) (L1.length + 2)
            (by omega) ?_ ?_ ?_, ?_, ?_⟩
        · show a + s.length ≤ b.len + s.length
          omega
        · show findPieceAux a
            (L1 ++ (⟨p.off1, p.off1 + (a - pieceLenSum L1)⟩ : Piece) ::
              (⟨b.bytes.length, b.bytes.length + s.length⟩ : Piece) ::
              (⟨p.off1 + (a - pieceLenSum L1), p.off2⟩ : Piece) :: L2) 0 0 =
            (a, L1.length + 1)
          have h0 := findPieceAux_inside
            (L1 ++ [(⟨p.off1, p.off1 + (a - pieceLenSum L1)⟩ : Piece)])
            ((⟨p.off1 + (a - pieceLenSum L1), p.off2⟩ : Piece) :: L2)
            (⟨b.bytes.length, b.bytes.length + s.length⟩ : Piece) a
            (by rw [pieceLenSum_append, pieceLenSum_cons, pieceLenSum_nil, hpl]; omega)
            (by rw [pieceLenSum_append, pieceLenSum_cons, pieceLenSum_nil, hpl, hnpl]; omega)
          rw [List.append_assoc, List.singleton_append] at h0
          rw [h0, pieceLenSum_append, pieceLenSum_cons, pieceLenSum_nil, hpl,
            List.length_append]
          simp only [List.length_cons, List.length_nil, Prod.mk.injEq]
          constructor <;> first | omega | trivial
        · show findPieceAux (a + s.length)
            (L1 ++ (⟨p.off1, p.off1 + (a - pieceLenSum L1)⟩ : Piece) ::
              (⟨b.bytes.length, b.bytes.length + s.length⟩ : Piece) ::
              (⟨p.off1 + (a - pieceLenSum L1), p.off2⟩ : Piece) :: L2) 0 0 =
            (a + s.length, L1.length + 2)
          have h0 := findPieceAux_inside
            (L1 ++ [(⟨p.off1, p.off1 + (a - pieceLenSum L1)⟩ : Piece),
              (⟨b.bytes.length, b.bytes.length + s.length⟩ : Piece)]) L2
            (⟨p.off1 + (a - pieceLenSum L1), p.off2⟩ : Piece) (a + s.length)
            (by simp only [pieceLenSum_append, pieceLenSum_cons, pieceLenSum_nil, hpl, hnpl]
                omega)
            (by simp only [pieceLenSum_append, pieceLenSum_cons, pieceLenSum_nil, hpl, hnpl,
                  hprl]
                omega)
          rw [List.append_assoc] at h0
          simp only [List.cons_append, List.nil_append] at h0
          rw [h0]
          simp only [pieceLenSum_append, pieceLenSum_cons, pieceLenSum_nil, hpl, hnpl,
            List.length_append, List.length_cons, List.length_nil, Prod.mk.injEq]
          constructor <;> first | omega | trivial
        · show b.len + s.length - (a + s.length - a) = b.len
          omega
        · show Buf.string _ = Buf.string b
          rw [string_eq_listContent, string_eq_listContent]
          show listContent (b.bytes ++ s)
            ((L1 ++ (⟨p.off1, p.off1 + (a - pieceLenSum L1)⟩ : Piece) ::
                (⟨b.bytes.length, b.bytes.length + s.length⟩ : Piece) ::
                (⟨p.off1 + (a - pieceLenSum L1), p.off2⟩ : Piece) :: L2).take (L1.length + 1) ++
             (L1 ++ (⟨p.off1, p.off1 + (a - pieceLenSum L1)⟩ : Piece) ::
                (⟨b.bytes.length, b.bytes.length + s.length⟩ : Piece) ::
                (⟨p.off1 + (a - pieceLenSum L1), p.off2⟩ : Piece) :: L2).drop (L1.length + 2)) =
            listContent b.bytes b.pieces
          rw [List.drop_append 2]
          simp only [List.drop_succ_cons, List.drop_zero]
          rw [show (L1 ++ (⟨p.off1, p.off1 + (a - pieceLenSum L1)⟩ : Piece) ::
                (⟨b.bytes.length, b.bytes.length + s.length⟩ : Piece) ::
                (⟨p.off1 + (a - pieceLenSum L1), p.off2⟩ : Piece) :: L2) =
              (L1 ++ [(⟨p.off1, p.off1 + (a - pieceLenSum L1)⟩ : Piece)]) ++
                ((⟨b.bytes.length, b.bytes.length + s.length⟩ : Piece) ::
                 (⟨p.off1 + (a - pieceLenSum L1), p.off2⟩ : Piece) :: L2) by simp]
          rw [List.take_left' (by simp)]
          rw [hL]
          simp only [listContent_append, listContent_cons, listContent_nil, List.append_nil]
          rw [listContent_store_append b.bytes s L1
              (fun q hq => ⟨(hpc q (by rw [hL]; simp [hq])).1.le,
                            (hpc q (by rw [hL]; simp [hq])).2⟩),
            listContent_store_append b.bytes s L2
              (fun q hq => ⟨(hpc q (by rw [hL]; simp [hq])).1.le,
                            (hpc q (by rw [hL]; simp [hq])).2⟩)]
          rw [slice_store_append' b.bytes s p.off1 (p.off1 + (a - pieceLenSum L1))
              (by omega) (by omega)]
          rw [slice_store_append' b.bytes s (p.off1 + (a - pieceLenSum L1)) p.off2
              (by omega) (by omega)]
          rw [Nat.add_sub_cancel_left]
          rw [slice_split b.bytes p.off1 (a - pieceLenSum L1) p.off2 (by omega)]
          simp [List.append_assoc]

/-- Witness for C6: inserting `"!"` at offset 2 of `"Hello"` and
deleting it again restores length 5 and the string `"Hello"`. -/
theorem insertDeleteRoundtripWitness :
    ∃ b2 b3, (singlePieceBuf [72, 101, 108, 108, 111]).insert ((2 : Nat) : Int) [33] =
        some b2 ∧
      b2.delete ((2 : Nat) : Int)
        (((2 : Nat) : Int) + (([33] : List Nat).length : Int)) = some b3 ∧
      b3.len = (singlePieceBuf [72, 101, 108, 108, 111]).len ∧
      b3.string = (singlePieceBuf [72, 101, 108, 108, 111]).string :=
  insertDeleteRoundtrip (singlePieceBuf [72, 101, 108, 108, 111]) (by decide) 2
    (by decide) [33]

/-! ### C3: UTF-8 decode case analysis -/

set_option maxHeartbeats 1000000 in
/-- Inversion of the leading-byte classification for multi-byte
starters. -/
lemma utf8First_multi_spec (b0 size lo hi : Nat) (h : utf8First b0 = .multi size lo hi) :
    0xC2 ≤ b0 ∧ b0 ≤ 0xF4 ∧ 0x80 ≤ lo ∧ hi ≤ 0xBF ∧
    (size = 2 ∨ size = 3 ∨ size = 4) ∧
    (size = 2 → 0xC2 ≤ b0 ∧ b0 < 0xE0) ∧
    (size = 3 → 0xE0 ≤ b0 ∧ b0 < 0xF0) ∧
    (size = 4 → 0xF0 ≤ b0 ∧ b0 ≤ 0xF4) ∧
    (b0 = 0xE0 → lo = 0xA0) ∧ (b0 = 0xF0 → lo = 0x90) := by
  unfold utf8First at h
  split_ifs at h <;> cases h <;>
    exact ⟨by omega, by omega, by omega, by omega, by omega, by omega,
      by omega, by omega, by omega, by omega⟩

/-- The size reported by the decoder: at least one byte, and never
more than the input, for nonempty input. -/
lemma utf8DecodeRune_size_bounds (l : List Nat) (hl : l ≠ []) :
    1 ≤ (utf8DecodeRune l).2 ∧ (utf8DecodeRune l).2 ≤ l.length := by
  match l with
  | b0 :: rest =>
    rcases hcls : utf8First b0 with _ | _ | ⟨size, lo, hi⟩
    · simp [utf8DecodeRune, hcls]
    · simp [utf8DecodeRune, hcls]
    · obtain ⟨-, -, -, -, hsz, -⟩ := utf8First_multi_spec b0 size lo hi hcls
      match rest with
      | [] =>
        simp only [utf8DecodeRune, hcls]
        split_ifs <;> constructor <;> (simp only [List.length_cons]; omega)
      | [b1] =>
        simp only [utf8DecodeRune, hcls]
        split_ifs <;> constructor <;> (simp only [List.length_cons]; omega)
      | [b1, b2] =>
        simp only [utf8DecodeRune, hcls]
        split_ifs <;> constructor <;> (simp only [List.length_cons]; omega)
      | b1 :: b2 :: b3 :: rest4 =>
        simp only [utf8DecodeRune, hcls]
        split_ifs <;> constructor <;> (simp only [List.length_cons]; omega)

/-- Inversion for ASCII classification. -/
lemma utf8First_ascii_lt (b0 : Nat) (h : utf8First b0 = .ascii) : b0 < 0x80 := by
  unfold utf8First at h
  split_ifs at h <;> omega

/-- A decode whose input does not start with an ASCII byte never
produces an ASCII rune; in particular it never produces a newline. -/
lemma utf8DecodeRune_fst_ge (l : List Nat) (hl : l ≠ []) (hh : 0x80 ≤ l.getD 0 0) :
    0x80 ≤ (utf8DecodeRune l).1 := by
  match l with
  | b0 :: rest =>
    simp only [List.getD_cons_zero] at hh
    rcases hcls : utf8First b0 with _ | _ | ⟨size, lo, hi⟩
    · exact absurd (utf8First_ascii_lt b0 hcls) (by omega)
    · simp [utf8DecodeRune, hcls, runeError]
    · obtain ⟨hb0lo, hb0hi, hlo, hhi, hsz, hs2, hs3, hs4, hE0, hF0⟩ :=
        utf8First_multi_spec b0 size lo hi hcls
    
      have value_bound : ∀ b1 : Nat, lo ≤ b1 → b1 ≤ hi →
          (size = 2 → 0x80 ≤ b0 % 32 * 64 + b1 % 64) ∧
          (size = 3 → 0x80 ≤ b0 % 16 * 4096 + b1 % 64 * 64) ∧
          (size = 4 → 0x80 ≤ b0 % 8 * 262144 + b1 % 64 * 4096) := by
        intro b1 hb1l hb1h
        by_cases he : b0 = 0xE0
        · have := hE0 he
          refine ⟨fun h2 => ?_, fun h3 => ?_, fun h4 => ?_⟩ <;> omega
        · by_cases hf : b0 = 0xF0
          · have := hF0 hf
            refine ⟨fun h2 => ?_, fun h3 => ?_, fun h4 => ?_⟩ <;> omega
          · refine ⟨fun h2 => ?_, fun h3 => ?_, fun h4 => ?_⟩
            · have := hs2 h2; omega
            · have := hs3 h3; omega
            · have := hs4 h4; omega
      match rest with
      | [] =>
        simp only [utf8DecodeRune, hcls]
        split_ifs <;> simp [runeError]
      | b1 :: rest2 =>
        have hvb := value_bound b1
        match rest2 with
        | [] =>
          simp only [utf8DecodeRune, hcls]
          split_ifs with h1 h2 h3 <;> try simp [runeError]
          · exact (hvb (by omega) (by omega)).1 h3
        | b2 :: rest3 =>
          match rest3 with
          | [] =>
            simp only [utf8DecodeRune, hcls]
            split_ifs with h1 h2 h3 h4 h5 <;> try simp [runeError]
            · exact (hvb (by omega) (by omega)).1 h3
            · have := (hvb (by omega) (by omega)).2.1 h5; omega
          | b3 :: rest4 =>
            simp only [utf8DecodeRune, hcls]
            split_ifs with h1 h2 h3 h4 h5 h6 <;> try simp [runeError]
            · exact (hvb (by omega) (by omega)).1 h3
            · have := (hvb (by omega) (by omega)).2.1 h5; omega
            · have := (hvb (by omega) (by omega)).2.2 (by omega); omega

/-- Every byte after the first that a successful multi-byte decode
consumes is a continuation byte, hence at least 0x80 and never a
newline. -/
lemma utf8DecodeRune_tail_ge (l : List Nat) (j : Nat) (h1 : 1 ≤ j)
    (hj : j < (utf8DecodeRune l).2) : 0x80 ≤ l.getD j 0 := by
  match l with
  | [] => simp [utf8DecodeRune] at hj
  | b0 :: rest =>
    rcases hcls : utf8First b0 with _ | _ | ⟨size, lo, hi⟩
    · simp [utf8DecodeRune, hcls] at hj; omega
    · simp [utf8DecodeRune, hcls] at hj; omega
    · obtain ⟨hb0lo, hb0hi, hlo, hhi, hsz, hs2, hs3, hs4, hE0, hF0⟩ :=
        utf8First_multi_spec b0 size lo hi hcls
      match rest with
      | [] =>
        simp only [utf8DecodeRune, hcls] at hj
        split_ifs at hj <;> omega
      | b1 :: rest2 =>
        match rest2 with
        | [] =>
          simp only [utf8DecodeRune, hcls] at hj
          split_ifs at hj with ha hb hc <;> try omega
          · match j with
            | 1 => exact show 0x80 ≤ b1 by omega
            | j + 2 => omega
        | b2 :: rest3 =>
          match rest3 with
          | [] =>
            simp only [utf8DecodeRune, hcls] at hj
            split_ifs at hj with ha hb hc hd he <;> try omega
            · match j with
              | 1 => exact show 0x80 ≤ b1 by omega
              | j + 2 => omega
            · match j with
              | 1 => exact show 0x80 ≤ b1 by omega
              | 2 => exact show 0x80 ≤ b2 by omega
              | j + 3 => omega
          | b3 :: rest4 =>
            simp only [utf8DecodeRune, hcls] at hj
            split_ifs at hj with ha hb hc hd he hf <;> try omega
            · match j with
              | 1 => exact show 0x80 ≤ b1 by omega
              | j + 2 => omega
            · match j with
              | 1 => exact show 0x80 ≤ b1 by omega
              | 2 => exact show 0x80 ≤ b2 by omega
              | j + 3 => omega
            · match j with
              | 1 => exact show 0x80 ≤ b1 by omega
              | 2 => exact show 0x80 ≤ b2 by omega
              | 3 => exact show 0x80 ≤ b3 by omega
              | j + 4 => omega

/-- A sequence rejected by `utf8.FullRune` is a proper prefix of a
valid encoding; in particular it has at most three bytes. -/
lemma utf8FullRune_false_length (l : List Nat) (h : utf8FullRune l = false) :
    l.length ≤ 3 := by
  match l with
  | [] => simp
  | b0 :: rest =>
    rcases hcls : utf8First b0 with _ | _ | ⟨size, lo, hi⟩
    · simp [utf8FullRune, hcls] at h
    · simp [utf8FullRune, hcls] at h
    · obtain ⟨-, -, -, -, hsz, -⟩ := utf8First_multi_spec b0 size lo hi hcls
      simp only [utf8FullRune, hcls] at h
      split_ifs at h with h1
      simp only [List.length_cons, not_le] at h1 ⊢
      omega

/-- The bytes after the first of a sequence rejected by
`utf8.FullRune` are continuation bytes, hence at least 0x80. -/
lemma utf8FullRune_false_tail (l : List Nat) (h : utf8FullRune l = false) (j : Nat)
    (h1 : 1 ≤ j) (hj : j < l.length) : 0x80 ≤ l.getD j 0 := by
  match l with
  | [] => simp at hj
  | b0 :: rest =>
    rcases hcls : utf8First b0 with _ | _ | ⟨size, lo, hi⟩
    · simp [utf8FullRune, hcls] at h
    · simp [utf8FullRune, hcls] at h
    · obtain ⟨hb0lo, hb0hi, hlo, hhi, hsz, -⟩ := utf8First_multi_spec b0 size lo hi hcls
      match rest with
      | [] => simp at hj; omega
      | b1 :: rest2 =>
        match rest2 with
        | [] =>
          simp only [utf8FullRune, hcls] at h
          split_ifs at h with ha hb
          match j with
          | 1 => exact show 0x80 ≤ b1 by omega
          | j + 2 => simp at hj
        | b2 :: rest3 =>
          simp only [utf8FullRune, hcls] at h
          split_ifs at h with ha hb hc
          match j with
          | 1 => exact show 0x80 ≤ b1 by omega
          | 2 => exact show 0x80 ≤ b2 by omega
          | j + 3 =>
            simp only [List.length_cons, not_le] at ha hj
            omega

/-! ### C3: pure facts about newline positions -/

lemma getD_drop (s : List Nat) (i t : Nat) : (s.drop i).getD t 0 = s.getD (i + t) 0 := by
  induction s generalizing i with
  | nil => simp
  | cons c rest ih =>
    match i with
    | 0 => simp
    | i + 1 =>
      simp only [List.drop_succ_cons]
      rw [ih i, show i + 1 + t = (i + t) + 1 by omega, List.getD_cons_succ]

lemma drop_eq_getD_cons (s : List Nat) (i : Nat) (hi : i < s.length) :
    s.drop i = s.getD i 0 :: s.drop (i + 1) := by
  induction s generalizing i with
  | nil => simp at hi
  | cons c rest ih =>
    match i with
    | 0 => simp
    | i + 1 =>
      simp only [List.drop_succ_cons, List.getD_cons_succ]
      exact ih i (by simpa using hi)

lemma firstNl_cons (c : Nat) (rest : List Nat) :
    firstNl (c :: rest) = if c = 10 then some 0 else (firstNl rest).map (· + 1) := by
  simp only [firstNl]

lemma lastLineStart_cons_nl (rest : List Nat) :
    lastLineStart (10 :: rest) = 1 + lastLineStart rest := by
  simp [lastLineStart]

lemma lastLineStart_cons_ne (c : Nat) (rest : List Nat) (hc : c ≠ 10) :
    lastLineStart (c :: rest) =
      if lastLineStart rest = 0 then 0 else 1 + lastLineStart rest := by
  simp only [lastLineStart]
  rw [if_neg hc]

lemma firstNl_none_lastLineStart (l : List Nat) (h : firstNl l = none) :
    lastLineStart l = 0 := by
  induction l with
  | nil => rfl
  | cons c rest ih =>
    rw [firstNl_cons] at h
    split_ifs at h with hc
    rw [Option.map_eq_none'] at h
    rw [lastLineStart_cons_ne c rest hc, if_pos (ih h)]

lemma firstNl_some (l : List Nat) (k : Nat) (h : firstNl l = some k) :
    k < l.length ∧ l.getD k 0 = 10 ∧
    lastLineStart l = (k + 1) + lastLineStart (l.drop (k + 1)) ∧
    l.count 10 = 1 + (l.drop (k + 1)).count 10 := by
  induction l generalizing k with
  | nil => simp [firstNl] at h
  | cons c rest ih =>
    rw [firstNl_cons] at h
    split_ifs at h with hc
    · cases h
      subst hc
      refine ⟨by simp, by simp, ?_, ?_⟩
      · simp only [List.drop_succ_cons, List.drop_zero]
        exact lastLineStart_cons_nl rest
      · simp only [List.drop_succ_cons, List.drop_zero]
        rw [List.count_cons]
        simp only [beq_iff_eq, if_true]
        omega
    · obtain ⟨k2, hk2, hk2e⟩ := Option.map_eq_some'.mp h
      have hk2e2 : k = k2 + 1 := hk2e.symm
      subst hk2e2
      obtain ⟨ih1, ih2, ih3, ih4⟩ := ih k2 hk2
      refine ⟨by simpa using ih1, by simpa using ih2, ?_, ?_⟩
      · rw [lastLineStart_cons_ne c rest hc, if_neg (by omega)]
        simp only [List.drop_succ_cons]
        omega
      · simp only [List.drop_succ_cons]
        rw [List.count_cons]
        simp only [beq_iff_eq]
        rw [if_neg hc]
        omega

lemma firstNl_shift (s : List Nat) (i : Nat) (hi : i < s.length) (hne : s.getD i 0 ≠ 10) :
    firstNl (s.drop i) = (firstNl (s.drop (i + 1))).map (· + 1) := by
  rw [drop_eq_getD_cons s i hi, firstNl_cons, if_neg hne]

lemma firstNl_shift_many (s : List Nat) (d i : Nat)
    (hbound : i + d ≤ s.length)
    (hno : ∀ t, t < d → s.getD (i + t) 0 ≠ 10) :
    firstNl (s.drop i) = (firstNl (s.drop (i + d))).map (· + d) := by
  induction d generalizing i with
  | zero =>
    simp only [Nat.add_zero]
    cases firstNl (s.drop i) <;> simp
  | succ d ih =>
    rw [firstNl_shift s i (by omega) (by simpa using hno 0 (by omega))]
    rw [ih (i + 1) (by omega) (fun t ht => by
      have := hno (t + 1) (by omega)
      rwa [show i + (t + 1) = i + 1 + t by omega] at this)]
    rw [show i + 1 + d = i + (d + 1) by omega, Option.map_map]
    cases firstNl (s.drop (i + (d + 1))) <;> simp

/-- Where a forward rune read from position `i` lands: strictly
further, and never past the end. -/
lemma spNext_bounds (s : List Nat) (i : Nat) (hi : i < s.length) :
    i < spNext s i ∧ spNext s i ≤ s.length := by
  have hne : s.drop i ≠ [] := by
    intro hcon
    have := congrArg List.length hcon
    simp at this
    omega
  unfold spNext
  split_ifs with h1 h2
  · omega
  · have hb := utf8DecodeRune_size_bounds (s.drop i) hne
    have hlen : (s.drop i).length = s.length - i := List.length_drop i s
    omega
  · omega

/-- The bytes a forward rune read consumes beyond the first are all at
least 0x80. -/
lemma spNext_no_nl (s : List Nat) (i t : Nat) (hi : i < s.length) (ht1 : 1 ≤ t)
    (ht2 : i + t < spNext s i) : 0x80 ≤ s.getD (i + t) 0 := by
  have hlen : (s.drop i).length = s.length - i := List.length_drop i s
  unfold spNext at ht2
  split_ifs at ht2 with h1 h2
  · omega
  · have := utf8DecodeRune_tail_ge (s.drop i) t ht1 (by omega)
    rwa [getD_drop] at this
  · have := utf8FullRune_false_tail (s.drop i)
      (by simpa using h2) t ht1 (by omega)
    rwa [getD_drop] at this

/-- The rune value produced at position `i` is a newline exactly when
the byte there is a newline. -/
lemma spRuneVal_nl_iff (s : List Nat) (i : Nat) (hi : i < s.length) :
    (spRuneVal s i = 10 ↔ s.getD i 0 = 10) := by
  have hne : s.drop i ≠ [] := by
    intro hcon
    have := congrArg List.length hcon
    simp at this
    omega
  unfold spRuneVal
  split_ifs with h1
  · exact Iff.rfl
  · have hge : 0x80 ≤ (s.drop i).getD 0 0 := by
      rw [getD_drop, Nat.add_zero]
      omega
    have := utf8DecodeRune_fst_ge (s.drop i) hne hge
    constructor <;> intro hcon <;> omega

/-! ### C3: the single-piece buffer and its reader -/

/-- Shape of the buffer built by one insert into the empty buffer. -/
lemma singlePieceBuf_eq (s : List Nat) (hs : s ≠ []) :
    singlePieceBuf s =
      { bytes := s, pieces := [⟨0, s.length⟩], len := s.length,
        nextFreeObserverId := 0, markers := [], lineCacheLine := 0,
        lineCacheOff := 0, lines := 0 } := by
  unfold singlePieceBuf Buf.insert
  rw [if_neg (by simp [Buf.init]), if_neg hs]
  dsimp only
  simp [Buf.init, Buf.findPiece, findPieceAux]

@[simp] lemma singlePieceBuf_nil : singlePieceBuf [] = Buf.init := rfl

/-- The staging `Read` of up to 4 bytes on a single-piece buffer that
holds fewer than 4 remaining bytes: it drains the document from the
current position and stops at the sentinel, as `readRuneForward` then
observes via the EOF flag. -/
lemma bufRead_sp (s : List Nat) (hs : s ≠ []) (rd : Reader) (i : Nat)
    (hrev : rd.rev = false) (hpi : rd.pieceIdx = 0) (hoip : rd.offInPiece = (i : Int))
    (hoff : rd.off = i) (hi : i ≤ s.length) (hlen : s.length - i < 4) :
    (singlePieceBuf s).read rd 4 =
      .ok (s.drop i, { rd with off := s.length, pieceIdx := 1, offInPiece := 0 }, true) := by
  have hdl : (s.drop i).length = s.length - i := List.length_drop i s
  unfold Buf.read
  rw [if_neg (by rw [hrev]; simp)]
  rw [singlePieceBuf_eq s hs]
  simp only [List.length_cons, List.length_nil, Nat.zero_add]
  simp only [bufReadLoop]
  rw [if_neg (by rw [hpi]; simp)]
  rw [hpi, hoip]
  simp only [Buf.pieceAt, Buf.sliceOfPiece, List.getD_cons_zero, Int.toNat_natCast,
    List.drop_zero, Nat.sub_zero, List.take_length, List.nil_append, List.length_nil]
  rw [hdl, min_eq_right (by omega : s.length - i ≤ 4), ← hdl, List.take_length]
  rw [if_neg (by omega)]
  rw [if_pos (by simp), hoff, hdl, show i + (s.length - i) = s.length by omega]

/-- One forward rune read on a single-piece buffer, away from the end:
it yields the rune `spRuneVal` and moves the reader to `spNext`. -/
lemma readRune_sp_step (s : List Nat) (rd : Reader) (i : Nat)
    (h : SPReader s rd i) (hi : i < s.length) :
    ∃ k rd2, readRune (singlePieceBuf s) rd = .val (spRuneVal s i) k rd2 ∧
      SPReader s rd2 (spNext s i) := by
  have hs : s ≠ [] := by
    intro hc
    subst hc
    simp at hi
  obtain ⟨hrev, hoff, hpos⟩ := h
  rcases hpos with ⟨hpi, hoip, -⟩ | ⟨hpi, hoip, hieq⟩
  swap
  · omega
  have hdl : (s.drop i).length = s.length - i := List.length_drop i s
  have hg0 : (s.drop i).getD 0 0 = s.getD i 0 := by rw [getD_drop, Nat.add_zero]
  have hbytes :
      ((singlePieceBuf s).sliceOfPiece ((singlePieceBuf s).pieceAt rd.pieceIdx)).drop
        rd.offInPiece.toNat = s.drop i := by
    rw [singlePieceBuf_eq s hs, hpi, hoip]
    simp [Buf.pieceAt, Buf.sliceOfPiece]
  unfold readRune
  rw [if_neg (by rw [hrev]; simp)]
  unfold readRuneForward
  rw [hbytes]
  by_cases hA : s.getD i 0 < 0x80
  · rw [if_pos (by rw [hg0]; exact ⟨by omega, hA⟩), hg0]
    dsimp only
    refine ⟨1, ⟨rd.pieceIdx, rd.offInPiece + 1, rd.off + 1, rd.rev, ((1 : Nat) : Int)⟩, ?_, ?_⟩
    · rw [show spRuneVal s i = s.getD i 0 by unfold spRuneVal; rw [if_pos hA]]
    · rw [show spNext s i = i + 1 by unfold spNext; rw [if_pos hA]]
      refine ⟨hrev, ?_, Or.inl ⟨by rw [hpi], ?_, by omega⟩⟩
      · show rd.off + 1 = i + 1
        rw [hoff]
      · show rd.offInPiece + 1 = ((i + 1 : Nat) : Int)
        rw [hoip]
        push_cast
        ring
  · rw [if_neg (by rw [hg0]; exact fun hc => hA hc.2)]
    by_cases hFR : utf8FullRune (s.drop i) = true
    · rw [if_pos hFR]
      have hsz := utf8DecodeRune_size_bounds (s.drop i)
        (by intro hc; rw [hc] at hdl; simp at hdl; omega)
      dsimp only
      refine ⟨(utf8DecodeRune (s.drop i)).2,
        ⟨rd.pieceIdx, rd.offInPiece + ((utf8DecodeRune (s.drop i)).2 : Int),
         rd.off + (utf8DecodeRune (s.drop i)).2, rd.rev,
         ((utf8DecodeRune (s.drop i)).2 : Int)⟩, ?_, ?_⟩
      · rw [show spRuneVal s i = (utf8DecodeRune (s.drop i)).1 by
          unfold spRuneVal; rw [if_neg hA]]
      · rw [show spNext s i = i + (utf8DecodeRune (s.drop i)).2 by
          unfold spNext; rw [if_neg hA, if_pos hFR]]
        refine ⟨hrev, ?_, Or.inl ⟨by rw [hpi], ?_, by omega⟩⟩
        · show rd.off + (utf8DecodeRune (s.drop i)).2 = i + (utf8DecodeRune (s.drop i)).2
          rw [hoff]
        · show rd.offInPiece + ((utf8DecodeRune (s.drop i)).2 : Int) =
            ((i + (utf8DecodeRune (s.drop i)).2 : Nat) : Int)
          rw [hoip]
          push_cast
          ring
    · rw [if_neg hFR]
      have hflen : (s.drop i).length ≤ 3 :=
        utf8FullRune_false_length (s.drop i) (by simpa using hFR)
      rw [bufRead_sp s hs rd i hrev hpi hoip hoff (by omega) (by omega)]
      dsimp only
      rw [if_neg (by omega)]
      refine ⟨(utf8DecodeRune (s.drop i)).2,
        ⟨1, 0, s.length, rd.rev, ((utf8DecodeRune (s.drop i)).2 : Int)⟩, ?_, ?_⟩
      · rw [show spRuneVal s i = (utf8DecodeRune (s.drop i)).1 by
          unfold spRuneVal; rw [if_neg hA]]
      · rw [show spNext s i = s.length by unfold spNext; rw [if_neg hA, if_neg hFR]]
        exact ⟨hrev, rfl, Or.inr ⟨rfl, rfl, rfl⟩⟩

/-- A forward rune read at the end of a single-piece buffer reports
EOF. -/
lemma readRune_sp_eof (s : List Nat) (hs : s ≠ []) (rd : Reader)
    (h : SPReader s rd s.length) :
    ∃ rd2, readRune (singlePieceBuf s) rd = .eofRes rd2 := by
  obtain ⟨hrev, hoff, hpos⟩ := h
  unfold readRune
  rw [if_neg (by rw [hrev]; simp)]
  unfold readRuneForward
  rcases hpos with ⟨hpi, hoip, -⟩ | ⟨hpi, hoip, -⟩
  · have hbytes :
        ((singlePieceBuf s).sliceOfPiece ((singlePieceBuf s).pieceAt rd.pieceIdx)).drop
          rd.offInPiece.toNat = [] := by
      rw [singlePieceBuf_eq s hs, hpi, hoip]
      simp [Buf.pieceAt, Buf.sliceOfPiece]
    rw [hbytes]
    rw [if_neg (by simp), if_neg (by simp [utf8FullRune])]
    rw [bufRead_sp s hs rd s.length hrev hpi hoip hoff (le_refl _) (by omega)]
    dsimp only
    rw [if_pos (by simp)]
    exact ⟨_, rfl⟩
  · have hbytes :
        ((singlePieceBuf s).sliceOfPiece ((singlePieceBuf s).pieceAt rd.pieceIdx)).drop
          rd.offInPiece.toNat = [] := by
      rw [singlePieceBuf_eq s hs, hpi]
      simp [Buf.pieceAt, Buf.sliceOfPiece]
    rw [hbytes]
    rw [if_neg (by simp), if_neg (by simp [utf8FullRune])]
    unfold Buf.read
    rw [if_neg (by rw [hrev]; simp)]
    rw [singlePieceBuf_eq s hs]
    simp only [bufReadLoop]
    rw [if_pos (by rw [hpi]; simp)]
    exact ⟨_, rfl⟩

lemma SPReader_le (s : List Nat) (rd : Reader) (i : Nat) (h : SPReader s rd i) :
    i ≤ s.length := by
  rcases h.2.2 with ⟨-, -, h3⟩ | ⟨-, -, h3⟩ <;> omega

/-- The bytes consumed by one rune read from `i` contain no newline
except possibly at `i` itself. -/
lemma spNext_no_nl_strict (s : List Nat) (i t : Nat) (hi : i < s.length)
    (h0 : s.getD i 0 ≠ 10) (ht : i ≤ t) (ht2 : t < spNext s i) : s.getD t 0 ≠ 10 := by
  rcases Nat.eq_or_lt_of_le ht with rfl | hlt
  · exact h0
  · have := spNext_no_nl s i (t - i) hi (by omega)
      (by rw [show i + (t - i) = t by omega]; omega)
    rw [show i + (t - i) = t by omega] at this
    omega

/-- The inner loop of `Line` on a single-piece buffer, when no newline
remains: it runs into EOF and reports failure. -/
lemma lineScanOne_sp_none (s : List Nat) (hs : s ≠ []) :
    ∀ (fuel i : Nat) (rd : Reader), SPReader s rd i → s.length + 1 ≤ fuel + i →
      firstNl (s.drop i) = none →
      lineScanOne (singlePieceBuf s) fuel rd = none := by
  intro fuel
  induction fuel with
  | zero => intro i rd h hfuel hnone; rfl
  | succ fuel ih =>
    intro i rd h hfuel hnone
    by_cases hi : i < s.length
    · have hnl : s.getD i 0 ≠ 10 := by
        intro hc
        rw [drop_eq_getD_cons s i hi, firstNl_cons, if_pos hc] at hnone
        exact Option.noConfusion hnone
      obtain ⟨k, rd2, hread, h2⟩ := readRune_sp_step s rd i h hi
      have hb := spNext_bounds s i hi
      simp only [lineScanOne]
      rw [hread]
      dsimp only
      rw [if_neg (fun hc => hnl ((spRuneVal_nl_iff s i hi).mp hc))]
      apply ih (spNext s i) rd2 h2 (by omega)
      have hsh := firstNl_shift_many s (spNext s i - i) i (by omega)
        (fun t ht => spNext_no_nl_strict s i (i + t) hi hnl (by omega) (by omega))
      rw [show i + (spNext s i - i) = spNext s i by omega] at hsh
      rw [hsh] at hnone
      exact Option.map_eq_none'.mp hnone
    · have hieq : i = s.length := by have := SPReader_le s rd i h; omega
      subst hieq
      obtain ⟨rd2, hread⟩ := readRune_sp_eof s hs rd h
      simp only [lineScanOne]
      rw [hread]

/-- The inner loop of `Line` on a single-piece buffer with a newline
remaining at absolute position `i + k`: it stops just past it. -/
lemma lineScanOne_sp_some (s : List Nat) :
    ∀ (fuel i k : Nat) (rd : Reader), SPReader s rd i → s.length + 1 ≤ fuel + i →
      firstNl (s.drop i) = some k →
      ∃ rd2, lineScanOne (singlePieceBuf s) fuel rd = some (i + k + 1, rd2) ∧
        SPReader s rd2 (i + k + 1) := by
  intro fuel
  induction fuel with
  | zero =>
    intro i k rd h hfuel hsome
    have hle := SPReader_le s rd i h
    have hk := (firstNl_some _ _ hsome).1
    have hdl : (s.drop i).length = s.length - i := List.length_drop i s
    omega
  | succ fuel ih =>
    intro i k rd h hfuel hsome
    have hle := SPReader_le s rd i h
    have hdl : (s.drop i).length = s.length - i := List.length_drop i s
    have hi : i < s.length := by
      have := (firstNl_some _ _ hsome).1
      omega
    obtain ⟨k2, rd2, hread, h2⟩ := readRune_sp_step s rd i h hi
    have hb := spNext_bounds s i hi
    simp only [lineScanOne]
    rw [hread]
    dsimp only
    by_cases hnl : s.getD i 0 = 10
    · rw [if_pos (by rw [spRuneVal_nl_iff s i hi]; exact hnl)]
      have hk0 : k = 0 := by
        rw [drop_eq_getD_cons s i hi, firstNl_cons, if_pos hnl] at hsome
        exact (Option.some.inj hsome).symm
      subst hk0
      have hnext : spNext s i = i + 1 := by
        unfold spNext
        rw [if_pos (by omega)]
      refine ⟨rd2, ?_, ?_⟩
      · rw [h2.2.1, hnext]
      · rw [show i + 0 + 1 = i + 1 by omega, ← hnext]
        exact h2
    · rw [if_neg (fun hc => hnl ((spRuneVal_nl_iff s i hi).mp hc))]
      have hsh := firstNl_shift_many s (spNext s i - i) i (by omega)
        (fun t ht => spNext_no_nl_strict s i (i + t) hi hnl (by omega) (by omega))
      rw [show i + (spNext s i - i) = spNext s i by omega] at hsh
      rw [hsh] at hsome
      obtain ⟨k3, hk3, hk3e⟩ := Option.map_eq_some'.mp hsome
      obtain ⟨rd3, hrec, h3⟩ := ih (spNext s i) k3 rd2 h2 (by omega) hk3
      refine ⟨rd3, ?_, ?_⟩
      · rw [hrec, show spNext s i + k3 + 1 = i + k + 1 by omega]
      · rw [show i + k + 1 = spNext s i + k3 + 1 by omega]
        exact h3
lemma singlePieceBuf_len (s : List Nat) (hs : s ≠ []) :
    (singlePieceBuf s).len = s.length := by
  rw [singlePieceBuf_eq s hs]

/-- The outer loop of `Line` on a single-piece buffer, asked to skip
more newlines than remain: it ends at the start of the last line and
reports the early error return. -/
lemma lineSkipLoop_sp (s : List Nat) (hs : s ≠ []) :
    ∀ (k i : Nat) (rd : Reader), SPReader s rd i → (s.drop i).count 10 < k →
      lineSkipLoop (singlePieceBuf s) k rd i = (i + lastLineStart (s.drop i), true) := by
  intro k
  induction k with
  | zero => intro i rd h hcnt; omega
  | succ k ih =>
    intro i rd h hcnt
    simp only [lineSkipLoop]
    rw [singlePieceBuf_len s hs]
    cases hfn : firstNl (s.drop i) with
    | none =>
      rw [lineScanOne_sp_none s hs (s.length + 1) i rd h (by omega) hfn,
        firstNl_none_lastLineStart _ hfn]
      rfl
    | some j =>
      obtain ⟨rd2, hscan, h2⟩ := lineScanOne_sp_some s (s.length + 1) i j rd h (by omega) hfn
      rw [hscan]
      dsimp only
      obtain ⟨hjlt, hj10, hlls, hcount⟩ := firstNl_some _ _ hfn
      have hdd : (s.drop i).drop (j + 1) = s.drop (i + j + 1) := by
        rw [List.drop_drop]
        congr 1
      rw [hdd] at hlls hcount
      rw [ih (i + j + 1) rd2 h2 (by omega)]
      rw [hlls]
      rw [show i + j + 1 + lastLineStart (s.drop (i + j + 1)) =
        i + (j + 1 + lastLineStart (s.drop (i + j + 1))) by omega]
/-- C3 (amended): on a single-piece buffer, when the requested line
number n exceeds the number of lines of the document, Line returns the
offset of the first byte of the last line (just past the last newline
byte, 0 when the document has none), because the scan inside the loop
hits EOF and returns the running start-of-line offset; it does not
return the end-of-document offset len. -/
theorem lineBeyondLastLine (s : List Nat) (n : Nat) (h : 1 + s.count 10 < n) :
    ((singlePieceBuf s).line n).1 = lastLineStart s := by
  rcases eq_or_ne s [] with rfl | hs
  · rw [singlePieceBuf_nil]
    unfold Buf.line
    rw [if_neg (by simp [Buf.init])]
    rw [if_neg (by simp only [Buf.init]; omega)]
    obtain ⟨k, hk⟩ : ∃ k, n - 1 = k + 1 := ⟨n - 2, by omega⟩
    dsimp only
    rw [hk]
    simp only [lineSkipLoop]
    rw [show lineScanOne Buf.init (Buf.init.len + 1) (Buf.init.newReader 0) = none from rfl]
    rfl
  · have hl : 0 < s.length := List.length_pos.mpr hs
    have hrd : SPReader s ((singlePieceBuf s).newReader 0) 0 := by
      rw [singlePieceBuf_eq s hs]
      refine ⟨?_, ?_, Or.inl ⟨?_, ?_, ?_⟩⟩ <;>
        simp [Buf.newReader, Buf.findPiece, findPieceAux, Piece.len, hl]
    unfold Buf.line
    rw [if_neg ?c1]
    case c1 =>
      rw [singlePieceBuf_eq s hs]
      simp
    rw [if_neg ?c2]
    case c2 =>
      rw [singlePieceBuf_eq s hs]
      dsimp only
      omega
    dsimp only
    rw [lineSkipLoop_sp s hs (n - 1) 0 _ hrd (by rw [List.drop_zero]; omega)]
    rw [List.drop_zero]
    simp
/-- C3 counterexample to the stated property: the document hi has one
line and no newline, so requesting line 2 exceeds the line count; Line
returns 0, the start of the last line, while len is 2. -/
theorem lineBeyondLastLineCounterexample :
    ((singlePieceBuf [104, 105]).line 2).1 = 0 ∧
    (singlePieceBuf [104, 105]).len = 2 :=
  ⟨by decide, by decide⟩

/-- Witness for the amended C3 theorem on a concrete input: a three
byte document with one newline, queried past its two lines. -/
theorem lineBeyondLastLineWitness :
    1 + List.count 10 [97, 10, 98] < 3 ∧
    ((singlePieceBuf [97, 10, 98]).line 3).1 = lastLineStart [97, 10, 98] :=
  ⟨by decide, lineBeyondLastLine [97, 10, 98] 3 (by decide)⟩

end BufModel
